import Mathlib

/-!
Verification of the PaperIQ Section Detection Engine
(`src/parsers/section_detector.py`, `src/models/paper_model.py`).

Text is modelled as `List Char`; Python floats are modelled as rationals;
regular expressions from the pattern table are modelled by executable
star-free language combinators with exact match semantics.
-/

set_option maxRecDepth 4096

abbrev Str := List Char

/-- ASCII whitespace, the characters recognised by Python's `\s` and `str.strip()`. -/
def isWs (c : Char) : Bool :=
  c = ' ' || c = '\t' || c = '\n' || c = '\r' || c = '\x0b' || c = '\x0c'

/-- ASCII decimal digit, Python's `\d`. -/
def isDigitCh (c : Char) : Bool :=
  '0' ≤ c && c ≤ '9'

/-- Python `str.strip()`: drop leading and trailing whitespace. -/
def pyStrip (s : Str) : Str :=
  ((s.dropWhile isWs).reverse.dropWhile isWs).reverse

/-- Python `str.split()` with no argument: split on whitespace runs, dropping
empty pieces. -/
def tokens : Str → List Str
  | [] => []
  | c :: cs =>
    if isWs c then tokens cs
    else (c :: cs.takeWhile (fun d => !isWs d)) :: tokens (cs.dropWhile (fun d => !isWs d))
termination_by s => s.length
decreasing_by
  · simp
  · simp only [List.length_cons]
    exact Nat.lt_succ_of_le (List.dropWhile_sublist _).length_le

def lowStr (s : Str) : Str := s.map Char.toLower

/-! ## Data model (`src/models/paper_model.py`) -/

inductive SectionType where
  | ABSTRACT
  | INTRODUCTION
  | METHODOLOGY
  | RESULTS
  | DISCUSSION
  | CONCLUSION
  | REFERENCES
  | UNKNOWN
deriving DecidableEq, Repr

/-- The `value` string of each enum member. -/
def SectionType.value : SectionType → String
  | .ABSTRACT => "abstract"
  | .INTRODUCTION => "introduction"
  | .METHODOLOGY => "methodology"
  | .RESULTS => "results"
  | .DISCUSSION => "discussion"
  | .CONCLUSION => "conclusion"
  | .REFERENCES => "references"
  | .UNKNOWN => "unknown"

/-- Enum iteration order (`for section_type in cls`). -/
def SectionType.enumOrder : List SectionType :=
  [.ABSTRACT, .INTRODUCTION, .METHODOLOGY, .RESULTS, .DISCUSSION,
   .CONCLUSION, .REFERENCES, .UNKNOWN]

/-- `SectionType.from_string`: lowercase and strip the input, return the first
enum member with that value, else UNKNOWN. -/
def SectionType.from_string (v : String) : SectionType :=
  let vl : String := ⟨pyStrip (lowStr v.data)⟩
  match SectionType.enumOrder.find? (fun st => st.value = vl) with
  | some st => st
  | none => .UNKNOWN

/-- `SectionType.all_expected`: every member except UNKNOWN. -/
def SectionType.all_expected : List SectionType :=
  SectionType.enumOrder.filter (fun s => s ≠ .UNKNOWN)

/-- `TextBlock`: a block of text with layout information. -/
structure TextBlock where
  text : Str
  x0 : ℚ := 0
  y0 : ℚ := 0
  x1 : ℚ := 0
  y1 : ℚ := 0
  page_number : Int := 0
  font_size : ℚ := 12
  font_name : Str := []
  is_bold : Bool := false
  is_italic : Bool := false
deriving DecidableEq, Repr

/-- `Section`: a section of a research paper. -/
structure Section where
  id : Option Int := none
  paper_id : Option Int := none
  section_type : SectionType := .UNKNOWN
  content : Str := []
  confidence : ℚ := 0
  start_position : Nat := 0
  end_position : Nat := 0
  word_count : Nat := 0
deriving DecidableEq, Repr

/-- `Section.__post_init__`: compute the word count from the content when it
was not provided. -/
def Section.postInit (s : Section) : Section :=
  if s.word_count = 0 ∧ s.content ≠ [] then
    { s with word_count := (tokens s.content).length }
  else s

/-- A constructor call `Section(...)` runs `__post_init__`. -/
def Section.make (s : Section) : Section := Section.postInit s

/-- The dictionary produced by `Section.to_dict` (fixed key set). -/
structure SectionDict where
  id : Option Int
  paper_id : Option Int
  section_type : String
  content : Str
  confidence : ℚ
  start_position : Nat
  end_position : Nat
  word_count : Nat
deriving DecidableEq, Repr

/-- `Section.to_dict`. -/
def Section.to_dict (s : Section) : SectionDict :=
  { id := s.id
    paper_id := s.paper_id
    section_type := s.section_type.value
    content := s.content
    confidence := s.confidence
    start_position := s.start_position
    end_position := s.end_position
    word_count := s.word_count }

/-- `Section.from_dict`: rebuild the fields and run the constructor
(which runs `__post_init__`). -/
def Section.from_dict (d : SectionDict) : Section :=
  Section.make
    { id := d.id
      paper_id := d.paper_id
      section_type := SectionType.from_string d.section_type
      content := d.content
      confidence := d.confidence
      start_position := d.start_position
      end_position := d.end_position
      word_count := d.word_count }

/-! ## Regular-expression languages of the pattern table

Each regex in `SectionDetector.SECTION_PATTERNS` is star-free apart from
character-class runs, so it is transcribed with exact language semantics:
`catL` tries every split, `litL` is a case-insensitive literal, runs of
`\s` / `\d` are "all characters in the class" tests. Patterns are matched
with `pattern.match(line_stripped)` and all end in `$`, hence full-string
membership. -/

def Lang := Str → Bool

/-- The empty-string language (used for optional groups). -/
def epsL : Lang := fun s => s.isEmpty

/-- Case-insensitive literal (regexes are compiled with `re.IGNORECASE`,
written in lowercase). -/
def litL (w : String) : Lang := fun s => lowStr s = w.data

/-- `\s*` -/
def wsStar : Lang := fun s => s.all isWs

/-- `\s+` -/
def wsPlus : Lang := fun s => !s.isEmpty && s.all isWs

/-- `\d+` -/
def digitsPlus : Lang := fun s => !s.isEmpty && s.all isDigitCh

/-- `\.?` -/
def dotOpt : Lang := fun s => s.isEmpty || s = ['.']

/-- Concatenation of two languages: some split of the string is in both. -/
def catL (a b : Lang) : Lang := fun s =>
  (List.range (s.length + 1)).any (fun i => a (s.take i) && b (s.drop i))

/-- Alternation `x|y`. -/
def altL (a b : Lang) : Lang := fun s => a s || b s

/-- Optional group `(?:x)?`. -/
def optL (a : Lang) : Lang := fun s => s.isEmpty || a s

/-- `\d+\.?\s*` — the arabic-numeral header prefix. -/
def numPfx : Lang := catL digitsPlus (catL dotOpt wsStar)

/-- `R\.?\s*` for a roman-numeral literal `R` — the roman header prefix. -/
def romPfx (lit : String) : Lang := catL (litL lit) (catL dotOpt wsStar)

/-- `w\s*$` — a single keyword followed by trailing whitespace. -/
def kwEnd (w : String) : Lang := catL (litL w) wsStar

/-- `w s?` — a keyword with optional plural `s`. -/
def plural (w : String) : Lang := catL (litL w) (optL (litL "s"))

/-- `methods?` -/
def methodsOpt : Lang := plural "method"

/-- `results?` -/
def resultsOpt : Lang := plural "result"

/-- `conclusions?` -/
def conclusionsOpt : Lang := plural "conclusion"

/-- `materials?\s+and\s+` -/
def matAnd : Lang := catL (plural "material") (catL wsPlus (catL (litL "and") wsPlus))

/-- `SECTION_PATTERNS`, in dict insertion order, each regex transcribed
left to right. -/
def sectionPatternTable : List (SectionType × List Lang) :=
  [ (.ABSTRACT,
      [ kwEnd "abstract",
        kwEnd "summary",
        kwEnd "synopsis" ]),
    (.INTRODUCTION,
      [ catL (optL numPfx) (kwEnd "introduction"),
        catL (optL (romPfx "i")) (kwEnd "introduction"),
        catL (litL "1") (catL wsPlus (kwEnd "introduction")),
        kwEnd "background" ]),
    (.METHODOLOGY,
      [ catL (optL numPfx) (catL (optL matAnd) (catL methodsOpt wsStar)),
        catL (optL numPfx) (kwEnd "methodology"),
        catL (optL numPfx) (catL (litL "experimental") (catL wsPlus
          (catL (altL (litL "setup") (altL (litL "design") methodsOpt)) wsStar))),
        catL (optL numPfx) (kwEnd "approach"),
        catL (optL numPfx) (catL (litL "proposed") (catL wsPlus
          (catL (altL (litL "method") (altL (litL "approach") (litL "system"))) wsStar))),
        catL (optL (romPfx "ii")) (catL methodsOpt wsStar),
        catL (optL (romPfx "iii")) (catL methodsOpt wsStar) ]),
    (.RESULTS,
      [ catL (optL numPfx) (catL resultsOpt wsStar),
        catL (optL numPfx) (catL (plural "experiment") wsStar),
        catL (optL numPfx) (catL (litL "experimental") (catL wsPlus (catL resultsOpt wsStar))),
        catL (optL numPfx) (kwEnd "findings"),
        catL (optL numPfx) (kwEnd "evaluation"),
        catL (optL (romPfx "iii")) (catL resultsOpt wsStar),
        catL (optL (romPfx "iv")) (catL resultsOpt wsStar) ]),
    (.DISCUSSION,
      [ catL (optL numPfx) (kwEnd "discussion"),
        catL (optL numPfx) (kwEnd "analysis"),
        catL (optL numPfx) (catL (litL "discussion") (catL wsPlus (catL (litL "and")
          (catL wsPlus (catL (altL (litL "analysis") (litL "implications")) wsStar))))),
        catL (optL (romPfx "iv")) (kwEnd "discussion"),
        catL (optL (romPfx "v")) (kwEnd "discussion") ]),
    (.CONCLUSION,
      [ catL (optL numPfx) (catL conclusionsOpt wsStar),
        catL (optL numPfx) (catL (litL "concluding") (catL wsPlus (catL (plural "remark") wsStar))),
        catL (optL numPfx) (catL (litL "summary") (catL wsPlus (catL (litL "and")
          (catL wsPlus (catL conclusionsOpt wsStar))))),
        catL (optL numPfx) (catL (litL "future") (catL wsPlus (kwEnd "work"))),
        catL (optL (romPfx "v")) (catL conclusionsOpt wsStar),
        catL (optL (romPfx "vi")) (catL conclusionsOpt wsStar) ]),
    (.REFERENCES,
      [ kwEnd "references",
        kwEnd "bibliography",
        catL (plural "work") (catL wsPlus (kwEnd "cited")),
        catL (litL "literature") (catL wsPlus (kwEnd "cited")) ]) ]

/-! ## Section detection pipeline (`src/parsers/section_detector.py`) -/

/-- `SectionMatch`: a potential section header match. -/
structure SectionMatch where
  section_type : SectionType
  header_text : Str
  position : Nat
  confidence : ℚ
  method : String
  font_size : ℚ := 0
  is_bold : Bool := false
deriving DecidableEq, Repr

/-- `SectionDetector.HEADER_FONT_RATIO` -/
def headerFontRatio : ℚ := 1.2

/-- Python `text.split("\n")`. -/
def splitNl : Str → List Str
  | [] => [[]]
  | c :: cs =>
    if c = '\n' then [] :: splitNl cs
    else
      match splitNl cs with
      | [] => [[c]]
      | t :: ts => (c :: t) :: ts

/-- The matches `_pattern_match` emits for one stripped line: one match per
section kind whose pattern list contains a matching pattern (the inner
`break` leaves the kind loop running). -/
def lineMatches (pos : Nat) (st : Str) : List SectionMatch :=
  sectionPatternTable.filterMap (fun kp =>
    if kp.2.any (fun p => p st) then
      some { section_type := kp.1, header_text := st, position := pos,
             confidence := 0.7, method := "pattern" }
    else none)

def patternMatchGo : List Str → Nat → List SectionMatch
  | [], _ => []
  | l :: ls, pos =>
    (let st := pyStrip l
     if st.isEmpty then [] else lineMatches pos st) ++ patternMatchGo ls (pos + l.length + 1)

/-- `_pattern_match`: scan lines with a running character offset. -/
def patternMatch (text : Str) : List SectionMatch :=
  patternMatchGo (splitNl text) 0

/-- Python substring containment (`in`). -/
def containsSub (hay sub : Str) : Bool :=
  (List.range (hay.length + 1)).any (fun i => sub.isPrefixOf (hay.drop i))

/-- Python `hay.find(sub)` as an `Option` (None for -1). -/
def findSub (hay sub : Str) : Option Nat :=
  (List.range (hay.length + 1)).find? (fun i => sub.isPrefixOf (hay.drop i))

/-- The keyword table of `_match_text_to_section`, in dict insertion order. -/
def keywordMap : List (String × SectionType) :=
  [ ("abstract", .ABSTRACT),
    ("introduction", .INTRODUCTION),
    ("methodology", .METHODOLOGY),
    ("methods", .METHODOLOGY),
    ("materials and methods", .METHODOLOGY),
    ("experimental setup", .METHODOLOGY),
    ("results", .RESULTS),
    ("experiments", .RESULTS),
    ("experimental results", .RESULTS),
    ("discussion", .DISCUSSION),
    ("analysis", .DISCUSSION),
    ("conclusion", .CONCLUSION),
    ("conclusions", .CONCLUSION),
    ("concluding remarks", .CONCLUSION),
    ("references", .REFERENCES),
    ("bibliography", .REFERENCES) ]

/-- `_match_text_to_section`: first keyword contained in the lowered,
stripped text wins. -/
def matchTextToSection (text : Str) : Option SectionType :=
  let tl := pyStrip (lowStr text)
  (keywordMap.find? (fun kw => containsSub tl kw.1.data)).map (·.2)

/-- The body of the `for block in text_blocks` loop of `_layout_analysis`,
returning `none` where the loop `continue`s. -/
def layoutBlockMatch (text : Str) (threshold : ℚ) (b : TextBlock) : Option SectionMatch :=
  let block_text := pyStrip b.text
  if block_text.length > 100 then none
  else
    let is_large_font := b.font_size ≥ threshold
    if ¬(is_large_font ∨ b.is_bold) then none
    else
      match matchTextToSection block_text with
      | none => none
      | some st =>
        match findSub (lowStr text) (lowStr block_text) with
        | none => none
        | some position =>
          let confidence : ℚ :=
            0.5 + (if is_large_font then 0.2 else 0) + (if b.is_bold then 0.15 else 0)
          some { section_type := st, header_text := block_text, position := position,
                 confidence := confidence, method := "layout",
                 font_size := b.font_size, is_bold := b.is_bold }

/-- The positive font sizes among the blocks (`font_sizes` in
`_layout_analysis`). -/
def positiveFontSizes (text_blocks : List TextBlock) : List ℚ :=
  (text_blocks.filter (fun b => 0 < b.font_size)).map (·.font_size)

/-- `avg_font_size * HEADER_FONT_RATIO` from `_layout_analysis`. -/
def headerThreshold (text_blocks : List TextBlock) : ℚ :=
  ((positiveFontSizes text_blocks).sum / ((positiveFontSizes text_blocks).length : ℚ))
    * headerFontRatio

/-- `_layout_analysis`. -/
def layoutAnalysis (text : Str) (text_blocks : List TextBlock) : List SectionMatch :=
  if text_blocks.isEmpty then []
  else if (positiveFontSizes text_blocks).isEmpty then []
  else text_blocks.filterMap (layoutBlockMatch text (headerThreshold text_blocks))

/-- `abs(pm.position - lm.position)` on naturals. -/
def natDist (a b : Nat) : Nat := max a b - min a b

/-- One iteration of the inner `for i, lm in enumerate(layout_matches)` loop
of `_combine_matches`; the accumulator is `(best_distance, i, best_layout)`,
`none` standing for the initial infinite distance. The search never consults
the consumed set. -/
def bestStep (pm : SectionMatch) (acc : Option (Nat × Nat × SectionMatch))
    (il : Nat × SectionMatch) : Option (Nat × Nat × SectionMatch) :=
  if il.2.section_type = pm.section_type then
    let d := natDist pm.position il.2.position
    let better : Bool := match acc with
      | none => true
      | some (bd, _, _) => decide (d < bd)
    if better && decide (d < 500) then some (d, il.1, il.2) else acc
  else acc

/-- The inner search of `_combine_matches`: closest same-kind layout match at
distance under 500, together with its index; ties keep the first index. -/
def bestLayoutFor (pm : SectionMatch) (lms : List SectionMatch) :
    Option (Nat × Nat × SectionMatch) :=
  lms.enum.foldl (bestStep pm) none

/-- The combined match built when a pattern and a layout match are paired. -/
def fuse (pm lm : SectionMatch) : SectionMatch :=
  { section_type := pm.section_type
    header_text := pm.header_text
    position := pm.position
    confidence := min 0.95 (pm.confidence + lm.confidence - 0.2)
    method := "combined"
    font_size := lm.font_size
    is_bold := lm.is_bold }

/-- The pattern-match loop of `_combine_matches`, threading the
`used_layout` set. -/
def combineGo (lms : List SectionMatch) :
    List SectionMatch → List Nat → List SectionMatch × List Nat
  | [], used => ([], used)
  | pm :: rest, used =>
    match bestLayoutFor pm lms with
    | some (_, idx, lm) =>
      let r := combineGo lms rest (idx :: used)
      (fuse pm lm :: r.1, r.2)
    | none =>
      let r := combineGo lms rest used
      (pm :: r.1, r.2)

/-- `_combine_matches`: pair pattern matches with layout matches, then append
the layout matches whose index was never consumed. -/
def combineMatches (pms lms : List SectionMatch) : List SectionMatch :=
  (combineGo lms pms []).1 ++
    (lms.enum.filter (fun il => ¬ il.1 ∈ (combineGo lms pms []).2)).map (·.2)

/-- One step of the `_deduplicate_matches` fold over an ordered dictionary:
insert a new key at the end, replace in place on strictly higher confidence. -/
def dedupStep : List (SectionType × SectionMatch) → SectionMatch →
    List (SectionType × SectionMatch)
  | [], m => [(m.section_type, m)]
  | (k, e) :: rest, m =>
    if k = m.section_type then
      if e.confidence < m.confidence then (k, m) :: rest else (k, e) :: rest
    else (k, e) :: dedupStep rest m

/-- `_deduplicate_matches`. -/
def dedupMatches (ms : List SectionMatch) : List SectionMatch :=
  (ms.foldl dedupStep []).map (·.2)

/-- Stable insertion by `position` (used to model Python's stable `sorted`). -/
def insertByPos (m : SectionMatch) : List SectionMatch → List SectionMatch
  | [] => [m]
  | x :: xs => if x.position < m.position then x :: insertByPos m xs else m :: x :: xs

/-- `sorted(matches, key=lambda m: m.position)`. -/
def sortByPos (ms : List SectionMatch) : List SectionMatch :=
  ms.foldr insertByPos []

/-- `text.find("\n", start)` as an `Option`. -/
def findNlFrom (text : Str) (start : Nat) : Option Nat :=
  ((text.drop start).findIdx? (fun c => c = '\n')).map (· + start)

/-- `header_end` in `_extract_section_content`: the first newline at or after
the match's offset, or the end of the header text when none exists. -/
def headerEndAt (text : Str) (m : SectionMatch) : Nat :=
  match findNlFrom text m.position with
  | some j => j
  | none => m.position + m.header_text.length

/-- `end_pos` in `_extract_section_content`: the next sorted match's offset,
or the end of the text for the last match. -/
def nextPos (text : Str) : List SectionMatch → Nat
  | m2 :: _ => m2.position
  | [] => text.length

/-- The loop body of `_extract_section_content` over the sorted matches. -/
def extractGo (cleaner : Str → Str) (minLen : Nat) (text : Str) :
    List SectionMatch → List Section
  | [] => []
  | m :: rest =>
    let content_start := headerEndAt text m + 1
    let end_pos := nextPos text rest
    let content := cleaner ((text.drop content_start).take (end_pos - content_start))
    if content.length < minLen then extractGo cleaner minLen text rest
    else
      Section.make { section_type := m.section_type, content := content,
                     confidence := m.confidence, start_position := content_start,
                     end_position := end_pos } :: extractGo cleaner minLen text rest

/-- `_extract_section_content` (the cleaner is the Text Cleaning collaborator's
`clean_section`, passed as a function; `minLen` is `config.min_section_length`,
default 50). -/
def extractSectionContent (cleaner : Str → Str) (minLen : Nat) (text : Str)
    (ms : List SectionMatch) : List Section :=
  extractGo cleaner minLen text (sortByPos ms)

/-- `detect_sections` on a non-null text. -/
def detectSections (cleaner : Str → Str) (minLen : Nat) (full_text : Str)
    (text_blocks : List TextBlock) : List Section :=
  if full_text.isEmpty then []
  else
    let pattern_matches := patternMatch full_text
    let layout_matches :=
      if text_blocks.isEmpty then [] else layoutAnalysis full_text text_blocks
    let ms := dedupMatches (combineMatches pattern_matches layout_matches)
    if ms.isEmpty then []
    else extractSectionContent cleaner minLen full_text (sortByPos ms)

/-- `detect_sections` as callable with a null `full_text`: `if not full_text`
is true for `None`, so it returns the empty list; no path raises. -/
def detectSectionsOpt (cleaner : Str → Str) (minLen : Nat) (full_text : Option Str)
    (text_blocks : List TextBlock) : Except String (List Section) :=
  match full_text with
  | none => .ok []
  | some t => .ok (detectSections cleaner minLen t text_blocks)

/-- `calculate_detection_quality`. -/
def calculateDetectionQuality (found_sections : List Section) : ℚ × String :=
  if found_sections.isEmpty then (0, "none")
  else
    let total_possible : ℚ := (SectionType.all_expected.length : ℚ)
    let sections_found : ℚ := (found_sections.length : ℚ)
    let avg_confidence :=
      (found_sections.map (·.confidence)).sum / (found_sections.length : ℚ)
    let completeness := sections_found / total_possible
    let score := completeness * 0.6 + avg_confidence * 0.4
    let level := if score ≥ 0.75 then "high"
      else if score ≥ 0.5 then "medium"
      else "low"
    (score, level)

/-! ## Specification-side definitions used by the theorems -/

/-- Invariant of the `_deduplicate_matches` fold: the accumulator holds, for
each section kind seen so far, the first candidate attaining the maximal
confidence among the processed candidates of that kind. -/
def DedupInv (processed : List SectionMatch) (acc : List (SectionType × SectionMatch)) : Prop :=
  (acc.map Prod.fst).Nodup ∧
  (∀ p ∈ acc, p.1 = p.2.section_type) ∧
  (∀ m ∈ processed, ∃ p ∈ acc, p.1 = m.section_type) ∧
  (∀ p ∈ acc, ∃ pre post, processed = pre ++ p.2 :: post ∧
    (∀ m ∈ pre, m.section_type = p.2.section_type → m.confidence < p.2.confidence) ∧
    (∀ m ∈ post, m.section_type = p.2.section_type → m.confidence ≤ p.2.confidence))

/-- What the reconciler emits in place of a pattern match: the fused match
when a best layout partner exists, the pattern match itself otherwise. -/
def combinedOf (pm : SectionMatch) (lms : List SectionMatch) : SectionMatch :=
  match bestLayoutFor pm lms with
  | some (_, _, lm) => fuse pm lm
  | none => pm

/-- Whether layout index `i` is consumed by some pattern match's pairing. -/
def pairedIdx (pms lms : List SectionMatch) (i : Nat) : Bool :=
  pms.any (fun pm =>
    match bestLayoutFor pm lms with
    | some (_, j, _) => j == i
    | none => false)

/-- Invariant of the `bestStep` fold over the enumerated layout matches `E`:
`none` means no same-kind match within 500 characters was seen; a `some`
holds the first enumerated pair attaining the minimal distance, which is
below 500. -/
def BestInv (pm : SectionMatch) (E : List (Nat × SectionMatch))
    (acc : Option (Nat × Nat × SectionMatch)) : Prop :=
  match acc with
  | none =>
    ∀ il ∈ E, il.2.section_type = pm.section_type →
      500 ≤ natDist pm.position il.2.position
  | some (d, i, lm) =>
    (i, lm) ∈ E ∧ lm.section_type = pm.section_type ∧
    d = natDist pm.position lm.position ∧ d < 500 ∧
    ∀ il ∈ E, il.2.section_type = pm.section_type →
      d ≤ natDist pm.position il.2.position

/-- Token lists as character lists. -/
def wl (ws : List String) : List Str := ws.map (·.data)

/-- `Glue tk L`: the string `L` spells the word list `tk`, the words separated
by nonempty whitespace runs and followed by trailing whitespace. This is the
shape of every string accepted by one of the pattern-table bodies, after the
optional numeral prefix has been removed. -/
inductive Glue : List Str → Str → Prop
  | last (w t : Str) (ht : ∀ c ∈ t, isWs c = true) : Glue [w] (w ++ t)
  | cons (w sep : Str) (ws : List Str) (r : Str) (hne : sep ≠ [])
      (hsep : ∀ c ∈ sep, isWs c = true) (hr : Glue ws r) :
      Glue (w :: ws) (w ++ (sep ++ r))

/-- Characters that can occur (after lowercasing) in an optional header
prefix `\d+\.?\s*` or `R\.?\s*` with `R` among i, ii, iii, iv, v, vi. -/
def pfxChar (c : Char) : Bool :=
  isDigitCh c || c = 'i' || c = 'v' || c = '.' || isWs c

/-- Every word list a pattern body can spell, with its section kind: the
alternations and optional plurals of `SECTION_PATTERNS`, fully expanded. -/
def allTok : List (SectionType × List Str) :=
  [ (.ABSTRACT, wl ["abstract"]),
    (.ABSTRACT, wl ["summary"]),
    (.ABSTRACT, wl ["synopsis"]),
    (.INTRODUCTION, wl ["introduction"]),
    (.INTRODUCTION, wl ["1", "introduction"]),
    (.INTRODUCTION, wl ["background"]),
    (.METHODOLOGY, wl ["method"]),
    (.METHODOLOGY, wl ["methods"]),
    (.METHODOLOGY, wl ["material", "and", "method"]),
    (.METHODOLOGY, wl ["material", "and", "methods"]),
    (.METHODOLOGY, wl ["materials", "and", "method"]),
    (.METHODOLOGY, wl ["materials", "and", "methods"]),
    (.METHODOLOGY, wl ["methodology"]),
    (.METHODOLOGY, wl ["experimental", "setup"]),
    (.METHODOLOGY, wl ["experimental", "design"]),
    (.METHODOLOGY, wl ["experimental", "method"]),
    (.METHODOLOGY, wl ["experimental", "methods"]),
    (.METHODOLOGY, wl ["approach"]),
    (.METHODOLOGY, wl ["proposed", "method"]),
    (.METHODOLOGY, wl ["proposed", "approach"]),
    (.METHODOLOGY, wl ["proposed", "system"]),
    (.RESULTS, wl ["result"]),
    (.RESULTS, wl ["results"]),
    (.RESULTS, wl ["experiment"]),
    (.RESULTS, wl ["experiments"]),
    (.RESULTS, wl ["experimental", "result"]),
    (.RESULTS, wl ["experimental", "results"]),
    (.RESULTS, wl ["findings"]),
    (.RESULTS, wl ["evaluation"]),
    (.DISCUSSION, wl ["discussion"]),
    (.DISCUSSION, wl ["analysis"]),
    (.DISCUSSION, wl ["discussion", "and", "analysis"]),
    (.DISCUSSION, wl ["discussion", "and", "implications"]),
    (.CONCLUSION, wl ["conclusion"]),
    (.CONCLUSION, wl ["conclusions"]),
    (.CONCLUSION, wl ["concluding", "remark"]),
    (.CONCLUSION, wl ["concluding", "remarks"]),
    (.CONCLUSION, wl ["summary", "and", "conclusion"]),
    (.CONCLUSION, wl ["summary", "and", "conclusions"]),
    (.CONCLUSION, wl ["future", "work"]),
    (.REFERENCES, wl ["references"]),
    (.REFERENCES, wl ["bibliography"]),
    (.REFERENCES, wl ["work", "cited"]),
    (.REFERENCES, wl ["works", "cited"]),
    (.REFERENCES, wl ["literature", "cited"]) ]

/-- Well-formedness of a token list: nonempty, with nonempty words free of
whitespace characters. -/
abbrev GoodWords (tk : List Str) : Prop :=
  tk ≠ [] ∧ ∀ w ∈ tk, w ≠ [] ∧ ∀ c ∈ w, isWs c = false

/-- A string accepted by one of kind `K`'s patterns decomposes into an
optional numeral prefix and a glued word sequence of `K`. -/
def PatDecomp (K : SectionType) (s : Str) : Prop :=
  ∃ p r tk, s = p ++ r ∧ (∀ c ∈ lowStr p, pfxChar c = true) ∧
    Glue tk (lowStr r) ∧ (K, tk) ∈ allTok

/-- The matches `_pattern_match` emits for one raw line at a given offset. -/
def lineEmit (pos : Nat) (l : Str) : List SectionMatch :=
  if (pyStrip l).isEmpty then [] else lineMatches pos (pyStrip l)

/-- The running character offset of `_pattern_match`: each line is paired
with the cumulative length of the lines before it plus one terminator per
line. -/
def withOffsets (pos : Nat) : List Str → List (Nat × Str)
  | [] => []
  | l :: ls => (pos, l) :: withOffsets (pos + l.length + 1) ls

theorem SectionType.from_string_value (k : SectionType) :
    SectionType.from_string k.value = k := by
  cases k <;> rfl

theorem Section.postInit_idem (s : Section) :
    Section.postInit (Section.postInit s) = Section.postInit s := by
  unfold Section.postInit
  by_cases hc : s.content = []
  · simp [hc]
  · by_cases hw : s.word_count = 0
    · by_cases hL : (tokens s.content).length = 0 <;> simp [hc, hw, hL]
    · simp [hw]

/-- **C10**: for every `Section` value after construction, the dictionary
round trip `Section.from_dict (s.to_dict)` returns a `Section` equal to `s`
in every field; in particular `SectionType.from_string` maps each kind's own
value string back to that kind, and the constructor's word-count
recomputation never changes an already computed word count. -/
theorem section_dict_roundtrip (s0 : Section) :
    Section.from_dict (Section.to_dict (Section.make s0)) = Section.make s0 := by
  unfold Section.from_dict Section.to_dict Section.make
  rw [SectionType.from_string_value]
  exact Section.postInit_idem s0

/-! ## C2: behaviour of `detect_sections` on a null full text -/

/-- **C2 (counterexample)**: calling `detect_sections` with a null `full_text`
does not raise: the `if not full_text` guard treats `None` like the empty
string and returns the empty list, contradicting the claim that a
precondition violation is raised. -/
theorem detect_sections_none_returns_ok :
    detectSectionsOpt (fun s => s) 50 none [] = Except.ok [] := rfl

/-- **C2 (amended)**: for every cleaner, minimum length and fragment list,
a null `full_text` yields `ok []` without any error, exactly as the empty
string does; null and empty are not distinguished. -/
theorem detect_sections_none_eq_empty (cleaner : Str → Str) (minLen : Nat)
    (blocks : List TextBlock) :
    detectSectionsOpt cleaner minLen none blocks = Except.ok [] ∧
    detectSectionsOpt cleaner minLen (some []) blocks = Except.ok [] := by
  constructor
  · rfl
  · simp [detectSectionsOpt, detectSections]

/-! ## C4: the quality scorer -/

theorem list_sum_nonneg_q (l : List ℚ) (h : ∀ x ∈ l, 0 ≤ x) : 0 ≤ l.sum := by
  induction l with
  | nil => simp
  | cons a t ih =>
    simp only [List.sum_cons]
    have ha := h a (by simp)
    have ht := ih (fun x hx => h x (by simp [hx]))
    linarith

theorem list_sum_le_length_q (l : List ℚ) (h : ∀ x ∈ l, x ≤ 1) : l.sum ≤ (l.length : ℚ) := by
  induction l with
  | nil => simp
  | cons a t ih =>
    simp only [List.sum_cons, List.length_cons]
    have ha := h a (by simp)
    have ht := ih (fun x hx => h x (by simp [hx]))
    push_cast
    linarith

theorem mem_all_expected_of_ne_unknown (k : SectionType) (h : k ≠ .UNKNOWN) :
    k ∈ SectionType.all_expected := by
  cases k <;> first | decide | exact absurd rfl h

theorem all_expected_length : SectionType.all_expected.length = 7 := rfl

/-- **C4**: the quality scorer returns `(0, "none")` on the empty list; on a
final section list (at most one section per kind, no UNKNOWN kind,
confidences in `[0,1]`) it returns
`score = (distinct kinds)/7 * 0.6 + (mean confidence) * 0.4`, a value in
`[0,1]`, with level "high" iff `score ≥ 0.75`, "medium" iff
`0.5 ≤ score < 0.75`, else "low". -/
theorem quality_scorer_final_list (ss : List Section)
    (hne : ss ≠ [])
    (hnodup : (ss.map (fun s => s.section_type)).Nodup)
    (hexp : ∀ s ∈ ss, s.section_type ≠ SectionType.UNKNOWN)
    (hconf : ∀ s ∈ ss, 0 ≤ s.confidence ∧ s.confidence ≤ 1) :
    calculateDetectionQuality [] = ((0 : ℚ), "none") ∧
    (calculateDetectionQuality ss).1 =
      (((ss.map (fun s => s.section_type)).dedup.length : ℚ) / 7) * 0.6 +
        ((ss.map (fun s => s.confidence)).sum / (ss.length : ℚ)) * 0.4 ∧
    0 ≤ (calculateDetectionQuality ss).1 ∧ (calculateDetectionQuality ss).1 ≤ 1 ∧
    (calculateDetectionQuality ss).2 =
      (if (calculateDetectionQuality ss).1 ≥ 0.75 then "high"
       else if (calculateDetectionQuality ss).1 ≥ 0.5 then "medium" else "low") := by
  have hlen : ss.length ≠ 0 := fun h => hne (List.eq_nil_of_length_eq_zero h)
  have hlenpos : (0 : ℚ) < (ss.length : ℚ) := by
    have : 0 < ss.length := Nat.pos_of_ne_zero hlen
    exact_mod_cast this
  have hdedup : (ss.map (fun s => s.section_type)).dedup = ss.map (fun s => s.section_type) :=
    hnodup.dedup
  have hsub : (ss.map (fun s => s.section_type)) ⊆ SectionType.all_expected := by
    intro k hk
    obtain ⟨s, hs, rfl⟩ := List.mem_map.mp hk
    exact mem_all_expected_of_ne_unknown _ (hexp s hs)
  have hle7 : ss.length ≤ 7 := by
    have := (List.subperm_of_subset hnodup hsub).length_le
    simpa using this
  have hq : calculateDetectionQuality ss =
      (((ss.length : ℚ) / 7) * 0.6 +
        ((ss.map (fun s => s.confidence)).sum / (ss.length : ℚ)) * 0.4,
       if ((ss.length : ℚ) / 7) * 0.6 +
            ((ss.map (fun s => s.confidence)).sum / (ss.length : ℚ)) * 0.4 ≥ 0.75
       then "high"
       else if ((ss.length : ℚ) / 7) * 0.6 +
            ((ss.map (fun s => s.confidence)).sum / (ss.length : ℚ)) * 0.4 ≥ 0.5
       then "medium" else "low") := by
    simp only [calculateDetectionQuality, List.isEmpty_eq_true, hne, if_false,
      all_expected_length]
    norm_num
  have hcompl0 : (0 : ℚ) ≤ (ss.length : ℚ) / 7 := by positivity
  have hcompl1 : (ss.length : ℚ) / 7 ≤ 1 := by
    rw [div_le_one (by norm_num)]
    exact_mod_cast hle7
  have havg0 : (0 : ℚ) ≤ (ss.map (fun s => s.confidence)).sum / (ss.length : ℚ) := by
    apply div_nonneg _ (le_of_lt hlenpos)
    apply list_sum_nonneg_q
    intro x hx
    obtain ⟨s, hs, rfl⟩ := List.mem_map.mp hx
    exact (hconf s hs).1
  have havg1 : (ss.map (fun s => s.confidence)).sum / (ss.length : ℚ) ≤ 1 := by
    rw [div_le_one hlenpos]
    have := list_sum_le_length_q (ss.map (fun s => s.confidence)) ?_
    · simpa using this
    · intro x hx
      obtain ⟨s, hs, rfl⟩ := List.mem_map.mp hx
      exact (hconf s hs).2
  refine ⟨rfl, ?_, ?_, ?_, ?_⟩
  · rw [hq, hdedup]
    simp
  · rw [hq]
    simp only
    nlinarith
  · rw [hq]
    simp only
    nlinarith
  · rw [hq]

/-- Witness for C4 at a concrete one-section list. -/
theorem quality_scorer_final_list_witness :
    (([{ section_type := SectionType.ABSTRACT, content := ['x'], confidence := 0.7 : Section }] :
        List Section) ≠ []) ∧
    0 ≤ (calculateDetectionQuality
      [{ section_type := SectionType.ABSTRACT, content := ['x'], confidence := 0.7 : Section }]).1 :=
  ⟨by decide,
   (quality_scorer_final_list
      [{ section_type := SectionType.ABSTRACT, content := ['x'], confidence := 0.7 : Section }]
      (by decide) (by decide) (by decide)
      (by
        intro s hs
        rw [List.mem_singleton] at hs
        subst hs
        exact ⟨by norm_num, by norm_num⟩)).2.2.1⟩

/-! ## C7: the deduplicator -/

theorem dedupStep_fresh (m : SectionMatch) :
    ∀ acc : List (SectionType × SectionMatch), m.section_type ∉ acc.map Prod.fst →
      dedupStep acc m = acc ++ [(m.section_type, m)]
  | [], _ => rfl
  | (k, e) :: rest, h => by
    have hk : k ≠ m.section_type := by
      intro hkm
      exact h (by simp [hkm])
    have hrest : m.section_type ∉ rest.map Prod.fst := by
      intro hrm
      exact h (by simp [hrm])
    simp only [dedupStep, if_neg hk, List.cons_append, List.cons.injEq, true_and]
    exact dedupStep_fresh m rest hrest

theorem dedupStep_found (m : SectionMatch) :
    ∀ (acc1 : List (SectionType × SectionMatch)) (e : SectionMatch)
      (acc2 : List (SectionType × SectionMatch)),
      m.section_type ∉ acc1.map Prod.fst →
      dedupStep (acc1 ++ (m.section_type, e) :: acc2) m =
        acc1 ++ (m.section_type, if e.confidence < m.confidence then m else e) :: acc2
  | [], e, acc2, _ => by
    simp only [List.nil_append, dedupStep, if_pos rfl]
    by_cases hc : e.confidence < m.confidence <;> simp [hc]
  | (k, e1) :: rest, e, acc2, h => by
    have hk : k ≠ m.section_type := by
      intro hkm
      exact h (by simp [hkm])
    have hrest : m.section_type ∉ rest.map Prod.fst := by
      intro hrm
      exact h (by simp [hrm])
    simp only [List.cons_append, dedupStep, if_neg hk, List.cons.injEq, true_and]
    exact dedupStep_found m rest e acc2 hrest

theorem dedupInv_step (processed : List SectionMatch)
    (acc : List (SectionType × SectionMatch)) (m : SectionMatch)
    (h : DedupInv processed acc) : DedupInv (processed ++ [m]) (dedupStep acc m) := by
  obtain ⟨hnd, hkey, hcov, hsplit⟩ := h
  by_cases hmem : m.section_type ∈ acc.map Prod.fst
  · -- the kind is already keyed: the entry is replaced in place iff strictly beaten
    obtain ⟨p, hp, hpk⟩ : ∃ p ∈ acc, Prod.fst p = m.section_type := by
      obtain ⟨p, hp, he⟩ := List.mem_map.mp hmem
      exact ⟨p, hp, he⟩
    obtain ⟨acc1, acc2, haeq⟩ := List.append_of_mem hp
    have hpe : p = (m.section_type, p.2) := by
      obtain ⟨pk, pe⟩ := p
      simp only at hpk
      rw [hpk]
    subst haeq
    rw [hpe] at hnd hkey hsplit
    rw [hpe]
    have hnd1 : m.section_type ∉ acc1.map Prod.fst ∧ m.section_type ∉ acc2.map Prod.fst := by
      have hnd' : ((acc1.map Prod.fst) ++ m.section_type :: (acc2.map Prod.fst)).Nodup := by
        simpa [List.map_append] using hnd
      have h1 := (List.nodup_cons.mp (List.nodup_middle.mp hnd')).1
      constructor
      · intro hc
        exact h1 (List.mem_append.mpr (Or.inl hc))
      · intro hc
        exact h1 (List.mem_append.mpr (Or.inr hc))
    rw [dedupStep_found m acc1 p.2 acc2 hnd1.1]
    have hek : p.2.section_type = m.section_type := by
      have := hkey (m.section_type, p.2) (by simp)
      simpa using this.symm
    obtain ⟨pre0, post0, hpeq, hpre0, hpost0⟩ :=
      hsplit (m.section_type, p.2) (by simp)
    simp only at hpeq hpre0 hpost0
    refine ⟨?_, ?_, ?_, ?_⟩
    · simpa [List.map_append] using hnd
    · intro q hq
      rcases List.mem_append.mp hq with h1 | h2
      · exact hkey q (by simp [h1])
      · rcases List.mem_cons.mp h2 with h3 | h4
        · subst h3
          by_cases hc : p.2.confidence < m.confidence <;> simp [hc, hek]
        · exact hkey q (by simp [h4])
    · intro m' hm'
      rcases List.mem_append.mp hm' with h1 | h2
      · obtain ⟨q, hq, he⟩ := hcov m' h1
        rcases List.mem_append.mp hq with h3 | h4
        · exact ⟨q, by simp [h3], he⟩
        · rcases List.mem_cons.mp h4 with h5 | h6
          · refine ⟨(m.section_type, if p.2.confidence < m.confidence then m else p.2),
              by simp, ?_⟩
            rw [h5] at he
            exact hpk.symm.trans he
          · exact ⟨q, by simp [h6], he⟩
      · rw [List.mem_singleton.mp h2]
        exact ⟨(m.section_type, if p.2.confidence < m.confidence then m else p.2),
          by simp, by simp⟩
    · intro q hq
      rcases List.mem_append.mp hq with h1 | h2
      · -- an untouched entry of a different kind: extend its tail with m, vacuously
        obtain ⟨pre, post, heq, hpre, hpost⟩ := hsplit q (by simp [h1])
        refine ⟨pre, post ++ [m], by rw [heq]; simp, hpre, ?_⟩
        intro m' hm' hkind
        rcases List.mem_append.mp hm' with h3 | h4
        · exact hpost m' h3 hkind
        · exfalso
          rw [List.mem_singleton.mp h4] at hkind
          have hqk := hkey q (by simp [h1])
          apply hnd1.1
          rw [← hqk] at hkind
          rw [hkind]
          exact List.mem_map_of_mem Prod.fst h1
      · rcases List.mem_cons.mp h2 with h3 | h4
        · -- the affected entry
          subst h3
          by_cases hc : p.2.confidence < m.confidence
        -- replaced: m is now the first strict maximum, placed at the very end
          · refine ⟨processed, [], by simp [hc], ?_, by simp⟩
            intro m' hm' hkind
            simp only [hc, if_true] at hkind
            have hk' : m'.section_type = p.2.section_type := by rw [hkind, hek]
            rw [hpeq] at hm'
            simp only [hc, if_true]
            rcases List.mem_append.mp hm' with h5 | h6
            · exact lt_trans (hpre0 m' h5 hk') hc
            · rcases List.mem_cons.mp h6 with h7 | h8
              · rw [h7]; exact hc
              · exact lt_of_le_of_lt (hpost0 m' h8 hk') hc
          -- kept: the incoming m is appended to the entry's tail
          · refine ⟨pre0, post0 ++ [m], ?_, ?_, ?_⟩
            · rw [hpeq]
              simp [hc]
            · intro m' hm' hkind
              simp only [hc, if_false] at hkind ⊢
              exact hpre0 m' hm' hkind
            · intro m' hm' hkind
              simp only [hc, if_false] at hkind ⊢
              rcases List.mem_append.mp hm' with h5 | h6
              · exact hpost0 m' h5 hkind
              · rw [List.mem_singleton.mp h6]
                rw [List.mem_singleton.mp h6] at hkind
                exact le_of_not_lt hc
        · -- an untouched entry after the affected one
          obtain ⟨pre, post, heq, hpre, hpost⟩ := hsplit q (by simp [h4])
          refine ⟨pre, post ++ [m], by rw [heq]; simp, hpre, ?_⟩
          intro m' hm' hkind
          rcases List.mem_append.mp hm' with h3 | h5
          · exact hpost m' h3 hkind
          · exfalso
            rw [List.mem_singleton.mp h5] at hkind
            have hqk := hkey q (by simp [h4])
            apply hnd1.2
            rw [← hqk] at hkind
            rw [hkind]
            exact List.mem_map_of_mem Prod.fst h4
  · -- a fresh kind: appended at the end of the dictionary
    rw [dedupStep_fresh m acc hmem]
    refine ⟨?_, ?_, ?_, ?_⟩
    · rw [List.map_append, List.nodup_append]
      refine ⟨hnd, by simp, ?_⟩
      intro a ha hb
      simp only [List.map_cons, List.map_nil, List.mem_singleton] at hb
      rw [hb] at ha
      exact hmem ha
    · intro p hp
      rcases List.mem_append.mp hp with h1 | h2
      · exact hkey p h1
      · rw [List.mem_singleton.mp h2]
    · intro m' hm'
      rcases List.mem_append.mp hm' with h1 | h2
      · obtain ⟨p, hp, he⟩ := hcov m' h1
        exact ⟨p, List.mem_append_left _ hp, he⟩
      · rw [List.mem_singleton.mp h2]
        exact ⟨(m.section_type, m), by simp, rfl⟩
    · intro p hp
      rcases List.mem_append.mp hp with h1 | h2
      · obtain ⟨pre, post, heq, hpre, hpost⟩ := hsplit p h1
        refine ⟨pre, post ++ [m], by rw [heq]; simp, hpre, ?_⟩
        intro m' hm' hkind
        rcases List.mem_append.mp hm' with h3 | h4
        · exact hpost m' h3 hkind
        · exfalso
          rw [List.mem_singleton.mp h4] at hkind
          have hqk := hkey p h1
          apply hmem
          rw [← hqk] at hkind
          rw [hkind]
          exact List.mem_map_of_mem Prod.fst h1
      · rw [List.mem_singleton.mp h2]
        refine ⟨processed, [], by simp, ?_, by simp⟩
        intro m' hm' hkind
        exfalso
        obtain ⟨q, hq, hqk⟩ := hcov m' hm'
        apply hmem
        rw [hkind] at hqk
        rw [← hqk]
        exact List.mem_map_of_mem Prod.fst hq

theorem dedupInv_foldl :
    ∀ (ms processed : List SectionMatch) (acc : List (SectionType × SectionMatch)),
      DedupInv processed acc → DedupInv (processed ++ ms) (ms.foldl dedupStep acc)
  | [], processed, acc, h => by simpa using h
  | m :: rest, processed, acc, h => by
    have h2 := dedupInv_foldl rest (processed ++ [m]) (dedupStep acc m)
      (dedupInv_step processed acc m h)
    simpa using h2

theorem dedupInv_full (ms : List SectionMatch) : DedupInv ms (ms.foldl dedupStep []) := by
  have h0 : DedupInv [] [] := by
    refine ⟨by simp, by simp, by simp, by simp⟩
  simpa using dedupInv_foldl ms [] [] h0

/-- **C7**: for every input list, the deduplicator keeps at most one candidate
per section kind, one candidate for every kind present in the input, and the
kept candidate is the first one in input order whose confidence is maximal
for its kind (earlier same-kind candidates are strictly below it, later ones
are at most it). -/
theorem deduplicator_keeps_first_maximum (ms : List SectionMatch) :
    ((dedupMatches ms).map (fun m => m.section_type)).Nodup ∧
    (∀ m ∈ ms, ∃ m' ∈ dedupMatches ms, m'.section_type = m.section_type) ∧
    (∀ m' ∈ dedupMatches ms, ∃ pre post, ms = pre ++ m' :: post ∧
      (∀ m ∈ pre, m.section_type = m'.section_type → m.confidence < m'.confidence) ∧
      (∀ m ∈ post, m.section_type = m'.section_type → m.confidence ≤ m'.confidence)) := by
  obtain ⟨hnd, hkey, hcov, hsplit⟩ := dedupInv_full ms
  refine ⟨?_, ?_, ?_⟩
  · unfold dedupMatches
    rw [List.map_map]
    have : (ms.foldl dedupStep []).map ((fun m => m.section_type) ∘ (fun p => p.2)) =
        (ms.foldl dedupStep []).map Prod.fst := by
      apply List.map_congr_left
      intro p hp
      exact (hkey p hp).symm
    rw [this]
    exact hnd
  · intro m hm
    obtain ⟨p, hp, he⟩ := hcov m hm
    refine ⟨p.2, List.mem_map_of_mem _ hp, ?_⟩
    rw [← hkey p hp]
    exact he
  · intro m' hm'
    obtain ⟨p, hp, he⟩ := List.mem_map.mp hm'
    obtain ⟨pre, post, heq, hpre, hpost⟩ := hsplit p hp
    rw [he] at heq hpre hpost
    exact ⟨pre, post, heq, hpre, hpost⟩

/-- Witness for C7 at a concrete two-candidate list: the first of two
equal-confidence candidates of the same kind is kept. -/
theorem deduplicator_keeps_first_maximum_witness :
    ∃ m' ∈ dedupMatches
      [{ section_type := SectionType.RESULTS, header_text := ['a'], position := 0,
         confidence := 0.7, method := "pattern" },
       { section_type := SectionType.RESULTS, header_text := ['b'], position := 9,
         confidence := 0.7, method := "pattern" }],
      m'.section_type = SectionType.RESULTS :=
  (deduplicator_keeps_first_maximum
    [{ section_type := SectionType.RESULTS, header_text := ['a'], position := 0,
       confidence := 0.7, method := "pattern" },
     { section_type := SectionType.RESULTS, header_text := ['b'], position := 9,
       confidence := 0.7, method := "pattern" }]).2.1
    { section_type := SectionType.RESULTS, header_text := ['a'], position := 0,
      confidence := 0.7, method := "pattern" } (by simp)

/-! ## C1 and C5: the match reconciler -/

theorem bestStep_inv (pm : SectionMatch) (E : List (Nat × SectionMatch))
    (acc : Option (Nat × Nat × SectionMatch)) (il : Nat × SectionMatch)
    (h : BestInv pm E acc) : BestInv pm (E ++ [il]) (bestStep pm acc il) := by
  by_cases hk : il.2.section_type = pm.section_type
  · simp only [bestStep, if_pos hk]
    cases acc with
    | none =>
      simp only [BestInv] at h
      by_cases hd : natDist pm.position il.2.position < 500
      · rw [if_pos (by simp [hd])]
        refine ⟨by simp, hk, rfl, hd, ?_⟩
        intro jl hjl hjk
        rcases List.mem_append.mp hjl with h1 | h2
        · exact le_of_lt (lt_of_lt_of_le hd (h jl h1 hjk))
        · rw [List.mem_singleton.mp h2]
      · rw [if_neg (by simp [hd])]
        intro jl hjl hjk
        rcases List.mem_append.mp hjl with h1 | h2
        · exact h jl h1 hjk
        · rw [List.mem_singleton.mp h2]
          exact le_of_not_lt hd
    | some t =>
      obtain ⟨bd, bi, blm⟩ := t
      obtain ⟨hmem, hbk, hbd, hb500, hmin⟩ := h
      by_cases hlt : natDist pm.position il.2.position < bd
      · have h500 : natDist pm.position il.2.position < 500 := lt_trans hlt hb500
        rw [if_pos (by simp [hlt, h500])]
        refine ⟨by simp, hk, rfl, h500, ?_⟩
        intro jl hjl hjk
        rcases List.mem_append.mp hjl with h1 | h2
        · exact le_trans (le_of_lt hlt) (hmin jl h1 hjk)
        · rw [List.mem_singleton.mp h2]
      · rw [if_neg (by simp [hlt])]
        refine ⟨List.mem_append_left _ hmem, hbk, hbd, hb500, ?_⟩
        intro jl hjl hjk
        rcases List.mem_append.mp hjl with h1 | h2
        · exact hmin jl h1 hjk
        · rw [List.mem_singleton.mp h2]
          exact le_of_not_lt hlt
  · simp only [bestStep, if_neg hk]
    cases acc with
    | none =>
      intro jl hjl hjk
      rcases List.mem_append.mp hjl with h1 | h2
      · exact h jl h1 hjk
      · exfalso
        rw [List.mem_singleton.mp h2] at hjk
        exact hk hjk
    | some t =>
      obtain ⟨bd, bi, blm⟩ := t
      obtain ⟨hmem, hbk, hbd, hb500, hmin⟩ := h
      refine ⟨List.mem_append_left _ hmem, hbk, hbd, hb500, ?_⟩
      intro jl hjl hjk
      rcases List.mem_append.mp hjl with h1 | h2
      · exact hmin jl h1 hjk
      · exfalso
        rw [List.mem_singleton.mp h2] at hjk
        exact hk hjk

theorem bestFold_inv (pm : SectionMatch) :
    ∀ (l E : List (Nat × SectionMatch)) (acc : Option (Nat × Nat × SectionMatch)),
      BestInv pm E acc → BestInv pm (E ++ l) (l.foldl (bestStep pm) acc)
  | [], E, acc, h => by simpa using h
  | il :: rest, E, acc, h => by
    have h2 := bestFold_inv pm rest (E ++ [il]) (bestStep pm acc il)
      (bestStep_inv pm E acc il h)
    simpa using h2

theorem bestLayoutFor_inv (pm : SectionMatch) (lms : List SectionMatch) :
    BestInv pm lms.enum (bestLayoutFor pm lms) := by
  have h0 : BestInv pm [] none := by
    intro jl hjl
    simp at hjl
  simpa using bestFold_inv pm lms.enum [] none h0

theorem mem_enum_snd {l : List SectionMatch} {i : Nat} {a : SectionMatch}
    (h : (i, a) ∈ l.enum) : a ∈ l := by
  have h2 := List.mem_enum_iff_getElem?.mp h
  obtain ⟨hlt, he⟩ := List.getElem?_eq_some.mp h2
  have := List.getElem_mem hlt
  rw [he] at this
  exact this

theorem enum_snd_forall {l : List SectionMatch} (P : SectionMatch → Prop)
    (h : ∀ a ∈ l, P a) : ∀ il ∈ l.enum, P il.2 := by
  intro il hil
  exact h il.2 (mem_enum_snd (by simpa using hil))

theorem combineGo_fst (lms : List SectionMatch) :
    ∀ (pms : List SectionMatch) (used : List Nat),
      (combineGo lms pms used).1 = pms.map (fun pm => combinedOf pm lms)
  | [], _ => rfl
  | pm :: rest, used => by
    cases hb : bestLayoutFor pm lms with
    | none =>
      simp only [combineGo, hb, List.map_cons]
      rw [combineGo_fst lms rest used]
      rw [show combinedOf pm lms = pm from by simp [combinedOf, hb]]
    | some t =>
      obtain ⟨d, i, lm⟩ := t
      simp only [combineGo, hb, List.map_cons]
      rw [combineGo_fst lms rest (i :: used)]
      rw [show combinedOf pm lms = fuse pm lm from by simp [combinedOf, hb]]

theorem combineGo_snd (lms : List SectionMatch) :
    ∀ (pms : List SectionMatch) (used : List Nat) (i : Nat),
      i ∈ (combineGo lms pms used).2 ↔
        i ∈ used ∨ ∃ pm ∈ pms, ∃ d lm, bestLayoutFor pm lms = some (d, i, lm)
  | [], used, i => by simp [combineGo]
  | pm :: rest, used, i => by
    simp only [combineGo]
    cases hb : bestLayoutFor pm lms with
    | none =>
      simp only [combineGo_snd lms rest used i, List.mem_cons]
      constructor
      · rintro (h1 | h2)
        · exact Or.inl h1
        · obtain ⟨pm', hpm', hx⟩ := h2
          exact Or.inr ⟨pm', Or.inr hpm', hx⟩
      · rintro (h1 | h2)
        · exact Or.inl h1
        · obtain ⟨pm', hpm', d, lm, hx⟩ := h2
          rcases hpm' with h3 | h4
          · rw [h3] at hx
            rw [hx] at hb
            cases hb
          · exact Or.inr ⟨pm', h4, d, lm, hx⟩
    | some t =>
      obtain ⟨d0, i0, lm0⟩ := t
      simp only [combineGo_snd lms rest (i0 :: used) i, List.mem_cons]
      constructor
      · rintro ((h0 | h1) | h2)
        · exact Or.inr ⟨pm, Or.inl rfl, d0, lm0, by rw [hb, h0]⟩
        · exact Or.inl h1
        · obtain ⟨pm', hpm', hx⟩ := h2
          exact Or.inr ⟨pm', Or.inr hpm', hx⟩
      · rintro (h1 | h2)
        · exact Or.inl (Or.inr h1)
        · obtain ⟨pm', hpm', d, lm, hx⟩ := h2
          rcases hpm' with h3 | h4
          · rw [h3] at hx
            rw [hx] at hb
            injection hb with hb2
            injection hb2 with _ hb3
            injection hb3 with hb4 _
            exact Or.inl (Or.inl hb4)
          · exact Or.inr ⟨pm', h4, d, lm, hx⟩

theorem combineMatches_eq (pms lms : List SectionMatch) :
    combineMatches pms lms =
      pms.map (fun pm => combinedOf pm lms) ++
        (lms.enum.filter (fun il => !pairedIdx pms lms il.1)).map Prod.snd := by
  unfold combineMatches
  rw [combineGo_fst lms pms []]
  congr 1
  congr 1
  apply List.filter_congr
  intro il _
  have hiff := combineGo_snd lms pms [] il.1
  simp only [List.not_mem_nil, false_or] at hiff
  by_cases hmem : il.1 ∈ (combineGo lms pms []).2
  · obtain ⟨pm, hpm, d, lm, hx⟩ := hiff.mp hmem
    have hpi : pairedIdx pms lms il.1 = true := by
      apply List.any_eq_true.mpr
      exact ⟨pm, hpm, by rw [hx]; simp⟩
    simp [hmem, hpi]
  · have hpi : pairedIdx pms lms il.1 = false := by
      apply Bool.eq_false_iff.mpr
      intro hc
      obtain ⟨pm, hpm, hx⟩ := List.any_eq_true.mp hc
      apply hmem
      apply hiff.mpr
      refine ⟨pm, hpm, ?_⟩
      revert hx
      cases hb : bestLayoutFor pm lms with
      | none => simp
      | some t =>
        obtain ⟨d, j, lm⟩ := t
        simp only [beq_iff_eq]
        intro hji
        exact ⟨d, lm, by rw [hji]⟩
    simp [hmem, hpi]

/-- **C1 (amended)**: what `_combine_matches` actually computes. Each pattern
match is independently replaced by its fusion with the closest same-kind
layout match at distance under 500 (or passed through unchanged); afterwards
exactly the layout matches whose index was never consumed by any pairing are
appended unchanged. The consumed set only suppresses this pass-through: it is
not consulted during pairing, so one layout match may be paired with several
pattern matches. -/
theorem reconciler_characterization (pms lms : List SectionMatch) :
    combineMatches pms lms =
      pms.map (fun pm => combinedOf pm lms) ++
        (lms.enum.filter (fun il => !pairedIdx pms lms il.1)).map Prod.snd :=
  combineMatches_eq pms lms

theorem exists_enum_of_mem {l : List SectionMatch} {a : SectionMatch} (h : a ∈ l) :
    ∃ j, (j, a) ∈ l.enum := by
  obtain ⟨i, hi, he⟩ := List.mem_iff_getElem.mp h
  refine ⟨i, List.mem_enum_iff_getElem?.mpr ?_⟩
  simpa using List.getElem?_eq_some.mpr ⟨hi, he⟩

/-- **C5**: whenever the reconciler pairs a pattern match `pm` with a layout
match (the closest same-kind one at distance under 500), the emitted
candidate has provenance "combined", confidence exactly
`min 0.95 (pm.confidence + lm.confidence - 0.2)`, header text and offset from
the pattern match and font metadata from the layout match; a pattern match
with no such partner is emitted unchanged, and no partner exists exactly when
no same-kind layout match lies within 500 characters. -/
theorem reconciler_pairing (pms lms : List SectionMatch) :
    (combineMatches pms lms =
      pms.map (fun pm => combinedOf pm lms) ++
        (lms.enum.filter (fun il => !pairedIdx pms lms il.1)).map Prod.snd) ∧
    (∀ pm d i lm, bestLayoutFor pm lms = some (d, i, lm) →
      lm ∈ lms ∧ lm.section_type = pm.section_type ∧
      natDist pm.position lm.position < 500 ∧
      (∀ lm' ∈ lms, lm'.section_type = pm.section_type →
        natDist pm.position lm.position ≤ natDist pm.position lm'.position) ∧
      combinedOf pm lms =
        { section_type := pm.section_type, header_text := pm.header_text,
          position := pm.position,
          confidence := min 0.95 (pm.confidence + lm.confidence - 0.2),
          method := "combined", font_size := lm.font_size,
          is_bold := lm.is_bold }) ∧
    (∀ pm, bestLayoutFor pm lms = none → combinedOf pm lms = pm) ∧
    (∀ pm, bestLayoutFor pm lms = none ↔
      ∀ lm ∈ lms, lm.section_type = pm.section_type →
        500 ≤ natDist pm.position lm.position) := by
  refine ⟨combineMatches_eq pms lms, ?_, ?_, ?_⟩
  · intro pm d i lm hb
    have hinv := bestLayoutFor_inv pm lms
    rw [hb] at hinv
    obtain ⟨hmem, hk, hd, h500, hmin⟩ := hinv
    refine ⟨mem_enum_snd hmem, hk, by rw [← hd]; exact h500, ?_, ?_⟩
    · intro lm' hlm' hk'
      obtain ⟨j, hj⟩ := exists_enum_of_mem hlm'
      have := hmin (j, lm') hj hk'
      rw [← hd]
      exact this
    · simp [combinedOf, hb, fuse]
  · intro pm hb
    simp [combinedOf, hb]
  · intro pm
    constructor
    · intro hb lm hlm hk
      have hinv := bestLayoutFor_inv pm lms
      rw [hb] at hinv
      obtain ⟨j, hj⟩ := exists_enum_of_mem hlm
      exact hinv (j, lm) hj hk
    · intro hall
      cases hb : bestLayoutFor pm lms with
      | none => rfl
      | some t =>
        obtain ⟨d, i, lm⟩ := t
        have hinv := bestLayoutFor_inv pm lms
        rw [hb] at hinv
        obtain ⟨hmem, hk, hd, h500, _⟩ := hinv
        exfalso
        have := hall lm (mem_enum_snd hmem) hk
        rw [← hd] at this
        exact absurd h500 (not_lt.mpr this)

/-- Witness for C5 at scenario D: a Results pattern match at offset 1000 and
a Results layout match at offset 1050 pair into a combined match with
confidence min(0.95, 0.70 + 0.85 - 0.20) = 0.95. -/
theorem reconciler_pairing_witness :
    combinedOf
      { section_type := SectionType.RESULTS, header_text := ['r'], position := 1000,
        confidence := 0.7, method := "pattern" }
      [{ section_type := SectionType.RESULTS, header_text := ['R'], position := 1050,
         confidence := 0.85, method := "layout", font_size := 14, is_bold := true }] =
      { section_type := SectionType.RESULTS, header_text := ['r'], position := 1000,
        confidence := min 0.95 (0.7 + 0.85 - 0.2), method := "combined",
        font_size := 14, is_bold := true } :=
  ((reconciler_pairing
      [{ section_type := SectionType.RESULTS, header_text := ['r'], position := 1000,
         confidence := 0.7, method := "pattern" }]
      [{ section_type := SectionType.RESULTS, header_text := ['R'], position := 1050,
         confidence := 0.85, method := "layout", font_size := 14, is_bold := true }]).2.1
    { section_type := SectionType.RESULTS, header_text := ['r'], position := 1000,
      confidence := 0.7, method := "pattern" }
    50 0
    { section_type := SectionType.RESULTS, header_text := ['R'], position := 1050,
      confidence := 0.85, method := "layout", font_size := 14, is_bold := true }
    (by rfl)).2.2.2.2

/-- **C1 (counterexample)**: one layout match paired with two pattern matches
of the same kind: both emitted candidates are "combined" and both carry the
single layout match's font metadata, so a layout match that has already been
paired is paired again. -/
theorem reconciler_reuses_layout_counterexample :
    combineMatches
      [{ section_type := SectionType.RESULTS, header_text := ['a'], position := 0,
         confidence := 0.7, method := "pattern" },
       { section_type := SectionType.RESULTS, header_text := ['b'], position := 10,
         confidence := 0.7, method := "pattern" }]
      [{ section_type := SectionType.RESULTS, header_text := ['c'], position := 5,
         confidence := 0.85, method := "layout", font_size := 14, is_bold := true }] =
      [fuse { section_type := SectionType.RESULTS, header_text := ['a'], position := 0,
              confidence := 0.7, method := "pattern" }
            { section_type := SectionType.RESULTS, header_text := ['c'], position := 5,
              confidence := 0.85, method := "layout", font_size := 14, is_bold := true },
       fuse { section_type := SectionType.RESULTS, header_text := ['b'], position := 10,
              confidence := 0.7, method := "pattern" }
            { section_type := SectionType.RESULTS, header_text := ['c'], position := 5,
              confidence := 0.85, method := "layout", font_size := 14, is_bold := true }] ∧
    ∀ pm lm : SectionMatch,
      (fuse pm lm).method = "combined" ∧
      (fuse pm lm).confidence = min 0.95 (pm.confidence + lm.confidence - 0.2) ∧
      (fuse pm lm).font_size = lm.font_size ∧
      (fuse pm lm).is_bold = lm.is_bold :=
  ⟨rfl, fun _ _ => ⟨rfl, rfl, rfl, rfl⟩⟩

/-! ## C8: the layout matcher -/

/-- **C8**: the layout matcher returns the empty list when no fragments are
supplied or none carries a positive font size; otherwise it filter-maps the
per-fragment rule, which skips any fragment whose trimmed text exceeds 100
characters or that is neither at the header font-size threshold nor bold, and
every emitted candidate carries confidence exactly
`0.5 + (0.2 if large font) + (0.15 if bold)` together with the fragment's
font metadata. -/
theorem layout_matcher_spec (text : Str) (blocks : List TextBlock) :
    ((blocks = [] ∨ ∀ b ∈ blocks, ¬(0 < b.font_size)) →
      layoutAnalysis text blocks = []) ∧
    ((∃ b ∈ blocks, 0 < b.font_size) →
      layoutAnalysis text blocks =
        blocks.filterMap (layoutBlockMatch text (headerThreshold blocks))) ∧
    (∀ (thr : ℚ) (b : TextBlock),
      ((pyStrip b.text).length > 100 ∨ (¬(b.font_size ≥ thr) ∧ b.is_bold = false)) →
      layoutBlockMatch text thr b = none) ∧
    (∀ (thr : ℚ) (b : TextBlock) (m : SectionMatch),
      layoutBlockMatch text thr b = some m →
      (pyStrip b.text).length ≤ 100 ∧
      (b.font_size ≥ thr ∨ b.is_bold = true) ∧
      m.confidence = 0.5 + (if b.font_size ≥ thr then (0.2 : ℚ) else 0) +
        (if b.is_bold then (0.15 : ℚ) else 0) ∧
      m.method = "layout" ∧ m.font_size = b.font_size ∧ m.is_bold = b.is_bold) := by
  refine ⟨?_, ?_, ?_, ?_⟩
  · rintro (h | h)
    · rw [h]
      rfl
    · unfold layoutAnalysis
      have hpos : positiveFontSizes blocks = [] := by
        unfold positiveFontSizes
        rw [List.filter_eq_nil_iff.mpr]
        · rfl
        · intro b hb
          simpa using h b hb
      rw [hpos]
      simp
  · rintro ⟨b, hb, hbpos⟩
    unfold layoutAnalysis
    have hne : ¬ blocks.isEmpty := by
      intro hc
      rw [List.isEmpty_iff.mp hc] at hb
      simp at hb
    have hposne : ¬ (positiveFontSizes blocks).isEmpty := by
      intro hc
      have hmem : b.font_size ∈ positiveFontSizes blocks := by
        unfold positiveFontSizes
        exact List.mem_map_of_mem _ (List.mem_filter.mpr ⟨hb, by simpa using hbpos⟩)
      rw [List.isEmpty_iff.mp hc] at hmem
      simp at hmem
    rw [if_neg (by simpa using hne), if_neg (by simpa using hposne)]
  · intro thr b h
    unfold layoutBlockMatch
    rcases h with h1 | h2
    · rw [if_pos h1]
    · by_cases hlen : (pyStrip b.text).length > 100
      · rw [if_pos hlen]
      · rw [if_neg hlen,
          if_pos (show ¬(b.font_size ≥ thr ∨ b.is_bold = true) by
            rintro (hc | hc)
            · exact h2.1 hc
            · rw [h2.2] at hc
              cases hc)]
  · intro thr b m h
    unfold layoutBlockMatch at h
    by_cases h1 : (pyStrip b.text).length > 100
    · rw [if_pos h1] at h
      cases h
    · rw [if_neg h1] at h
      by_cases h2 : ¬(b.font_size ≥ thr ∨ b.is_bold = true)
      · rw [if_pos (by push_neg at h2 ⊢; exact ⟨h2.1, by simp [h2.2]⟩)] at h
        cases h
      · rw [if_neg h2] at h
        push_neg at h2
        refine ⟨by omega, by tauto, ?_⟩
        revert h
        cases hmt : matchTextToSection (pyStrip b.text) with
        | none => intro h; cases h
        | some st =>
          cases hf : findSub (lowStr text) (lowStr (pyStrip b.text)) with
          | none => intro h; cases h
          | some pos =>
            intro h
            injection h with h
            rw [← h]
            refine ⟨rfl, rfl, rfl, rfl⟩

/-- Witness for C8: a fragment whose trimmed text has 101 characters is
skipped regardless of layout. -/
theorem layout_matcher_spec_witness :
    layoutBlockMatch [] 10 { text := List.replicate 101 'x' } = none :=
  (layout_matcher_spec [] []).2.2.1 10 { text := List.replicate 101 'x' }
    (Or.inl (by decide))

/-! ## C9: confidence bounds along the pipeline -/

theorem lineMatches_fields (pos : Nat) (st : Str) :
    ∀ m ∈ lineMatches pos st, m.confidence = 0.7 ∧ m.method = "pattern" := by
  intro m hm
  obtain ⟨kp, _, hsome⟩ := List.mem_filterMap.mp hm
  revert hsome
  by_cases hc : kp.2.any (fun p => p st) = true
  · rw [if_pos hc]
    intro hsome
    injection hsome with hsome
    rw [← hsome]
    exact ⟨rfl, rfl⟩
  · rw [if_neg hc]
    intro hsome
    cases hsome

theorem patternMatchGo_fields :
    ∀ (ls : List Str) (pos : Nat), ∀ m ∈ patternMatchGo ls pos,
      m.confidence = 0.7 ∧ m.method = "pattern"
  | [], _, m, hm => by cases hm
  | l :: ls, pos, m, hm => by
    simp only [patternMatchGo] at hm
    rcases List.mem_append.mp hm with h1 | h2
    · revert h1
      by_cases hc : (pyStrip l).isEmpty
      · rw [if_pos hc]
        intro h1
        cases h1
      · rw [if_neg hc]
        exact lineMatches_fields pos (pyStrip l) m
    · exact patternMatchGo_fields ls (pos + l.length + 1) m h2

theorem patternMatch_fields (t : Str) :
    ∀ m ∈ patternMatch t, m.confidence = 0.7 ∧ m.method = "pattern" :=
  patternMatchGo_fields (splitNl t) 0

theorem layoutBlockMatch_conf (text : Str) (thr : ℚ) (b : TextBlock)
    (m : SectionMatch) (h : layoutBlockMatch text thr b = some m) :
    m.confidence = 0.5 + (if b.font_size ≥ thr then (0.2 : ℚ) else 0) +
      (if b.is_bold then (0.15 : ℚ) else 0) ∧
    m.method = "layout" := by
  unfold layoutBlockMatch at h
  by_cases h1 : (pyStrip b.text).length > 100
  · rw [if_pos h1] at h
    cases h
  · rw [if_neg h1] at h
    by_cases h2 : ¬(b.font_size ≥ thr ∨ b.is_bold = true)
    · rw [if_pos h2] at h
      cases h
    · rw [if_neg h2] at h
      revert h
      cases hmt : matchTextToSection (pyStrip b.text) with
      | none => intro h; cases h
      | some st =>
        cases hf : findSub (lowStr text) (lowStr (pyStrip b.text)) with
        | none => intro h; cases h
        | some pos =>
          intro h
          injection h with h
          rw [← h]
          exact ⟨rfl, rfl⟩

theorem layoutAnalysis_bounds (text : Str) (blocks : List TextBlock) :
    ∀ m ∈ layoutAnalysis text blocks,
      0.5 ≤ m.confidence ∧ m.confidence ≤ 0.85 ∧ m.method = "layout" := by
  intro m hm
  unfold layoutAnalysis at hm
  by_cases h1 : blocks.isEmpty
  · rw [if_pos h1] at hm
    cases hm
  · rw [if_neg h1] at hm
    by_cases h2 : (positiveFontSizes blocks).isEmpty
    · rw [if_pos h2] at hm
      cases hm
    · rw [if_neg h2] at hm
      obtain ⟨b, _, hsome⟩ := List.mem_filterMap.mp hm
      obtain ⟨hconf, hmeth⟩ :=
        layoutBlockMatch_conf text (headerThreshold blocks) b m hsome
      refine ⟨?_, ?_, hmeth⟩ <;>
        · rw [hconf]
          by_cases hl : b.font_size ≥ headerThreshold blocks <;>
            by_cases hb : b.is_bold <;> simp [hl, hb] <;> norm_num

theorem combineMatches_mem_cases (pms lms : List SectionMatch) :
    ∀ m ∈ combineMatches pms lms,
      (∃ pm ∈ pms, m = combinedOf pm lms) ∨ m ∈ lms := by
  intro m hm
  rw [combineMatches_eq] at hm
  rcases List.mem_append.mp hm with h1 | h2
  · obtain ⟨pm, hpm, he⟩ := List.mem_map.mp h1
    exact Or.inl ⟨pm, hpm, he.symm⟩
  · obtain ⟨il, hil, he⟩ := List.mem_map.mp h2
    have : il ∈ lms.enum := List.mem_of_mem_filter hil
    right
    rw [← he]
    obtain ⟨i, a⟩ := il
    exact mem_enum_snd this

theorem combinedOf_conf_bounds (pm : SectionMatch) (lms : List SectionMatch)
    (hpm : pm.confidence = 0.7)
    (hlms : ∀ lm ∈ lms, 0.5 ≤ lm.confidence ∧ lm.confidence ≤ 0.85) :
    0 ≤ (combinedOf pm lms).confidence ∧ (combinedOf pm lms).confidence ≤ 0.95 := by
  unfold combinedOf
  cases hb : bestLayoutFor pm lms with
  | none =>
    rw [hpm]
    norm_num
  | some t =>
    obtain ⟨d, i, lm⟩ := t
    have hinv := bestLayoutFor_inv pm lms
    rw [hb] at hinv
    obtain ⟨hmem, _, _, _, _⟩ := hinv
    have hlm := hlms lm (mem_enum_snd hmem)
    simp only [fuse]
    constructor
    · apply le_min
      · norm_num
      · rw [hpm]
        linarith [hlm.1]
    · exact min_le_left _ _

theorem combineMatches_conf_bounds (pms lms : List SectionMatch)
    (hpms : ∀ m ∈ pms, m.confidence = 0.7)
    (hlms : ∀ lm ∈ lms, 0.5 ≤ lm.confidence ∧ lm.confidence ≤ 0.85) :
    ∀ m ∈ combineMatches pms lms, 0 ≤ m.confidence ∧ m.confidence ≤ 0.95 := by
  intro m hm
  rcases combineMatches_mem_cases pms lms m hm with ⟨pm, hpm, he⟩ | h2
  · rw [he]
    exact combinedOf_conf_bounds pm lms (hpms pm hpm) hlms
  · have := hlms m h2
    constructor <;> linarith [this.1, this.2]

theorem dedupMatches_subset (ms : List SectionMatch) :
    ∀ m' ∈ dedupMatches ms, m' ∈ ms := by
  intro m' hm'
  obtain ⟨_, _, _, hsplit⟩ := dedupInv_full ms
  obtain ⟨p, hp, he⟩ := List.mem_map.mp hm'
  obtain ⟨pre, post, heq, _, _⟩ := hsplit p hp
  rw [heq, he]
  simp

theorem mem_insertByPos (m a : SectionMatch) :
    ∀ l : List SectionMatch, a ∈ insertByPos m l ↔ a = m ∨ a ∈ l
  | [] => by simp [insertByPos]
  | x :: xs => by
    simp only [insertByPos]
    by_cases hc : x.position < m.position
    · rw [if_pos hc]
      rw [List.mem_cons, mem_insertByPos m a xs, List.mem_cons]
      tauto
    · rw [if_neg hc]
      exact List.mem_cons

theorem mem_sortByPos (ms : List SectionMatch) (a : SectionMatch) :
    a ∈ sortByPos ms ↔ a ∈ ms := by
  induction ms with
  | nil => simp [sortByPos]
  | cons x xs ih =>
    simp only [sortByPos, List.foldr_cons] at ih ⊢
    rw [mem_insertByPos, ih, List.mem_cons]

theorem postInit_confidence (s : Section) :
    (Section.postInit s).confidence = s.confidence := by
  unfold Section.postInit
  split <;> rfl

theorem extractGo_conf (cleaner : Str → Str) (minLen : Nat) (text : Str) :
    ∀ (l : List SectionMatch) (s : Section), s ∈ extractGo cleaner minLen text l →
      ∃ m ∈ l, s.confidence = m.confidence
  | [], s, hs => by cases hs
  | m :: rest, s, hs => by
    simp only [extractGo] at hs
    split at hs
    · obtain ⟨m', hm', he⟩ := extractGo_conf cleaner minLen text rest s hs
      exact ⟨m', List.mem_cons_of_mem _ hm', he⟩
    · rcases List.mem_cons.mp hs with h1 | h2
      · refine ⟨m, List.mem_cons_self _ _, ?_⟩
        rw [h1, Section.make, postInit_confidence]
      · obtain ⟨m', hm', he⟩ := extractGo_conf cleaner minLen text rest s h2
        exact ⟨m', List.mem_cons_of_mem _ hm', he⟩

/-- **C9**: pure pattern matches carry confidence exactly 0.70, pure layout
matches between 0.50 and 0.85, and every section emitted by the detection
pipeline has confidence in `[0, 0.95]`, hence never above 1.0. -/
theorem pipeline_confidence_bounds (cleaner : Str → Str) (minLen : Nat)
    (t : Str) (blocks : List TextBlock) :
    (∀ m ∈ patternMatch t, m.confidence = 0.7 ∧ m.method = "pattern") ∧
    (∀ m ∈ layoutAnalysis t blocks,
      0.5 ≤ m.confidence ∧ m.confidence ≤ 0.85 ∧ m.method = "layout") ∧
    (∀ s ∈ detectSections cleaner minLen t blocks,
      0 ≤ s.confidence ∧ s.confidence ≤ 0.95) := by
  refine ⟨patternMatch_fields t, layoutAnalysis_bounds t blocks, ?_⟩
  intro s hs
  unfold detectSections at hs
  by_cases h1 : t.isEmpty
  · rw [if_pos h1] at hs
    cases hs
  · rw [if_neg h1] at hs
    set lms := if blocks.isEmpty then [] else layoutAnalysis t blocks with hlms
    set ms := dedupMatches (combineMatches (patternMatch t) lms) with hms
    by_cases h2 : ms.isEmpty
    · rw [if_pos h2] at hs
      cases hs
    · rw [if_neg h2] at hs
      unfold extractSectionContent at hs
      obtain ⟨m, hm, he⟩ := extractGo_conf cleaner minLen t _ s hs
      rw [mem_sortByPos, mem_sortByPos] at hm
      have hmem := dedupMatches_subset _ m hm
      rw [he]
      apply combineMatches_conf_bounds (patternMatch t) lms
        (fun m' hm' => (patternMatch_fields t m' hm').1) ?_ m hmem
      intro lm hlm
      rw [hlms] at hlm
      by_cases hb : blocks.isEmpty
      · rw [if_pos hb] at hlm
        cases hlm
      · rw [if_neg hb] at hlm
        exact ⟨(layoutAnalysis_bounds t blocks lm hlm).1,
          (layoutAnalysis_bounds t blocks lm hlm).2.1⟩

/-- Witness for C9 at a concrete run of the pipeline. -/
theorem pipeline_confidence_bounds_witness :
    ∀ s ∈ detectSections (fun s => s) 1 "Abstract\nxyz".data [],
      0 ≤ s.confidence ∧ s.confidence ≤ 0.95 :=
  (pipeline_confidence_bounds (fun s => s) 1 "Abstract\nxyz".data []).2.2

/-! ## C3: monotonic, non-overlapping spans -/

theorem insertByPos_pairwise (m : SectionMatch) :
    ∀ l : List SectionMatch,
      List.Pairwise (fun a b : SectionMatch => a.position ≤ b.position) l →
      List.Pairwise (fun a b : SectionMatch => a.position ≤ b.position) (insertByPos m l)
  | [], _ => by simp [insertByPos]
  | x :: xs, h => by
    obtain ⟨hx, hxs⟩ := List.pairwise_cons.mp h
    simp only [insertByPos]
    by_cases hc : x.position < m.position
    · rw [if_pos hc]
      refine List.pairwise_cons.mpr ⟨?_, insertByPos_pairwise m xs hxs⟩
      intro b hb
      rcases (mem_insertByPos m b xs).mp hb with h1 | h2
      · rw [h1]
        exact le_of_lt hc
      · exact hx b h2
    · rw [if_neg hc]
      refine List.pairwise_cons.mpr ⟨?_, h⟩
      intro b hb
      rcases List.mem_cons.mp hb with h1 | h2
      · rw [h1]
        exact le_of_not_lt hc
      · exact le_trans (le_of_not_lt hc) (hx b h2)

theorem sortByPos_pairwise (ms : List SectionMatch) :
    List.Pairwise (fun a b : SectionMatch => a.position ≤ b.position) (sortByPos ms) := by
  induction ms with
  | nil => simp [sortByPos]
  | cons x xs ih => exact insertByPos_pairwise x (sortByPos xs) ih

theorem findNlFrom_ge (text : Str) (p j : Nat) (h : findNlFrom text p = some j) :
    p ≤ j := by
  unfold findNlFrom at h
  cases hf : (text.drop p).findIdx? (fun c => c = '\n') with
  | none =>
    rw [hf] at h
    cases h
  | some idx =>
    rw [hf] at h
    have h2 : idx + p = j := by
      simpa using h
    omega

theorem postInit_start (s : Section) :
    (Section.postInit s).start_position = s.start_position := by
  unfold Section.postInit
  split <;> rfl

theorem postInit_end (s : Section) :
    (Section.postInit s).end_position = s.end_position := by
  unfold Section.postInit
  split <;> rfl

theorem headerEndAt_ge (text : Str) (m : SectionMatch) :
    m.position ≤ headerEndAt text m := by
  unfold headerEndAt
  split
  · rename_i j hj
    exact findNlFrom_ge text m.position j hj
  · omega

theorem extractGo_start_lb (cleaner : Str → Str) (minLen : Nat) (text : Str) :
    ∀ (l : List SectionMatch) (s : Section), s ∈ extractGo cleaner minLen text l →
      ∃ m ∈ l, m.position + 1 ≤ s.start_position
  | [], s, hs => by cases hs
  | m :: rest, s, hs => by
    simp only [extractGo] at hs
    split at hs
    · obtain ⟨m', hm', hle⟩ := extractGo_start_lb cleaner minLen text rest s hs
      exact ⟨m', List.mem_cons_of_mem _ hm', hle⟩
    · rcases List.mem_cons.mp hs with h1 | h2
      · refine ⟨m, List.mem_cons_self _ _, ?_⟩
        rw [h1, Section.make, postInit_start]
        have := headerEndAt_ge text m
        simp only
        omega
      · obtain ⟨m', hm', hle⟩ := extractGo_start_lb cleaner minLen text rest s h2
        exact ⟨m', List.mem_cons_of_mem _ hm', hle⟩

theorem extractGo_chain (cleaner : Str → Str) (minLen : Nat) (text : Str)
    (hclean : cleaner [] = []) (hmin : 1 ≤ minLen) :
    ∀ l : List SectionMatch,
      List.Pairwise (fun a b : SectionMatch => a.position ≤ b.position) l →
      List.Chain'
        (fun a b : Section =>
          a.end_position ≤ b.start_position ∧ a.start_position ≤ b.start_position)
        (extractGo cleaner minLen text l) ∧
      (∀ s ∈ extractGo cleaner minLen text l, s.start_position < s.end_position)
  | [], _ => ⟨List.chain'_nil, by intro s hs; cases hs⟩
  | m :: rest, h => by
    obtain ⟨hx, hxs⟩ := List.pairwise_cons.mp h
    obtain ⟨ihc, ihlt⟩ := extractGo_chain cleaner minLen text hclean hmin rest hxs
    simp only [extractGo]
    split
    · exact ⟨ihc, ihlt⟩
    · rename_i hkeep
      push_neg at hkeep
      -- the kept section has a nonempty cleaned span, so its raw span is nonempty
      have hlt : headerEndAt text m + 1 < nextPos text rest := by
        by_contra hc
        push_neg at hc
        have hraw : (text.drop (headerEndAt text m + 1)).take
            (nextPos text rest - (headerEndAt text m + 1)) = [] := by
          have h0 : nextPos text rest - (headerEndAt text m + 1) = 0 := by omega
          rw [h0]
          rfl
        rw [hraw, hclean] at hkeep
        simp at hkeep
        omega
      have hnext_le : ∀ m' ∈ rest, nextPos text rest ≤ m'.position := by
        intro m' hm'
        cases hr : rest with
        | nil =>
          rw [hr] at hm'
          cases hm'
        | cons m2 rest2 =>
          rw [hr] at hm' hxs
          show m2.position ≤ m'.position
          rcases List.mem_cons.mp hm' with h3 | h4
          · rw [h3]
          · exact (List.pairwise_cons.mp hxs).1 m' h4
      constructor
      · rw [List.chain'_cons']
        refine ⟨?_, ihc⟩
        intro s' hs'
        have hs'mem : s' ∈ extractGo cleaner minLen text rest := by
          cases hh : (extractGo cleaner minLen text rest).head? with
          | none =>
            rw [hh] at hs'
            cases hs'
          | some a =>
            rw [hh] at hs'
            rw [Option.mem_some_iff.mp hs'] at hh
            exact List.mem_of_mem_head? hh
        obtain ⟨m', hm', hle⟩ := extractGo_start_lb cleaner minLen text rest s' hs'mem
        have h2 := hnext_le m' hm'
        constructor
        · rw [Section.make, postInit_end]
          simp only
          omega
        · rw [Section.make, postInit_start]
          simp only
          omega
      · intro s hs
        rcases List.mem_cons.mp hs with h1 | h2
        · rw [h1, Section.make, postInit_start, postInit_end]
          simpa using hlt
        · exact ihlt s h2

/-- **C3**: for every full text and fragment list (and any section cleaner
that maps the empty span to the empty string, with a positive minimum
content length), the Section list returned by `detect_sections` is ordered by
ascending `start_position`, consecutive spans satisfy
`end_position ≤ start_position` of the successor, and every emitted section
satisfies `start_position < end_position`. -/
theorem detect_sections_spans (cleaner : Str → Str) (minLen : Nat)
    (hclean : cleaner [] = []) (hmin : 1 ≤ minLen)
    (t : Str) (blocks : List TextBlock) :
    List.Chain' (fun a b : Section => a.end_position ≤ b.start_position)
      (detectSections cleaner minLen t blocks) ∧
    (∀ s ∈ detectSections cleaner minLen t blocks,
      s.start_position < s.end_position) ∧
    List.Chain' (fun a b : Section => a.start_position ≤ b.start_position)
      (detectSections cleaner minLen t blocks) := by
  unfold detectSections
  by_cases h1 : t.isEmpty
  · rw [if_pos h1]
    refine ⟨List.chain'_nil, ?_, List.chain'_nil⟩
    intro s hs
    cases hs
  · rw [if_neg h1]
    set lms := if blocks.isEmpty then [] else layoutAnalysis t blocks
    set ms := dedupMatches (combineMatches (patternMatch t) lms)
    by_cases h2 : ms.isEmpty
    · rw [if_pos h2]
      refine ⟨List.chain'_nil, ?_, List.chain'_nil⟩
      intro s hs
      cases hs
    · rw [if_neg h2]
      unfold extractSectionContent
      obtain ⟨hc, hlt⟩ := extractGo_chain cleaner minLen t hclean hmin
        (sortByPos (sortByPos ms)) (sortByPos_pairwise (sortByPos ms))
      exact ⟨hc.imp (fun a b hab => hab.1), hlt, hc.imp (fun a b hab => hab.2)⟩

/-- Witness for C3 at a concrete run. -/
theorem detect_sections_spans_witness :
    ((fun s : Str => s) [] = []) ∧ (1 ≤ 1) ∧
    ∀ s ∈ detectSections (fun s => s) 1 "Abstract\nxyz".data [],
      s.start_position < s.end_position :=
  ⟨rfl, by decide,
   (detect_sections_spans (fun s => s) 1 rfl (by decide) "Abstract\nxyz".data []).2.1⟩

/-! ## C6: the pattern matcher emits at most one candidate per line

The proof shows that the languages of different section kinds in the pattern
table are pairwise disjoint: any accepted line decomposes into an optional
numeral prefix and a glued word sequence drawn from `allTok`, and no string
admits such decompositions for two different kinds. -/

theorem isWs_char_cases (c : Char) (h : isWs c = true) :
    c = ' ' ∨ c = '\t' ∨ c = '\n' ∨ c = '\r' ∨ c = '\x0b' ∨ c = '\x0c' := by
  simp only [isWs, Bool.or_eq_true, decide_eq_true_eq] at h
  tauto

theorem isWs_toLower_eq (c : Char) (h : isWs c = true) : Char.toLower c = c := by
  rcases isWs_char_cases c h with rfl | rfl | rfl | rfl | rfl | rfl <;> decide

theorem toLower_not_upper (c : Char) (h : ¬(65 ≤ c.toNat ∧ c.toNat ≤ 90)) :
    Char.toLower c = c := by
  unfold Char.toLower
  rw [if_neg (by omega)]

theorem isDigit_toLower_eq (c : Char) (h : isDigitCh c = true) :
    Char.toLower c = c := by
  simp only [isDigitCh, Bool.and_eq_true, decide_eq_true_eq] at h
  apply toLower_not_upper
  have h2 : c.val.toNat ≤ ('9' : Char).val.toNat := h.2
  have h9 : ('9' : Char).val.toNat = 57 := rfl
  have hcn : c.toNat = c.val.toNat := rfl
  omega

theorem catL_eq (a b : Lang) (s : Str) :
    catL a b s = true ↔ ∃ x y, s = x ++ y ∧ a x = true ∧ b y = true := by
  unfold catL
  rw [List.any_eq_true]
  constructor
  · rintro ⟨i, _, hab⟩
    rw [Bool.and_eq_true] at hab
    exact ⟨s.take i, s.drop i, (List.take_append_drop i s).symm, hab.1, hab.2⟩
  · rintro ⟨x, y, rfl, ha, hb⟩
    refine ⟨x.length, ?_, ?_⟩
    · rw [List.mem_range, List.length_append]
      omega
    · rw [Bool.and_eq_true, List.take_left, List.drop_left]
      exact ⟨ha, hb⟩

theorem litL_eq (w : String) (x : Str) (h : litL w x = true) : lowStr x = w.data := by
  simpa [litL] using h

theorem optL_eq (a : Lang) (x : Str) (h : optL a x = true) : x = [] ∨ a x = true := by
  rw [optL, Bool.or_eq_true] at h
  rcases h with h1 | h2
  · exact Or.inl (List.isEmpty_iff.mp h1)
  · exact Or.inr h2

theorem altL_eq (a b : Lang) (x : Str) (h : altL a b x = true) :
    a x = true ∨ b x = true := by
  rw [altL, Bool.or_eq_true] at h
  exact h

theorem wsStar_low (y : Str) (h : wsStar y = true) :
    ∀ c ∈ lowStr y, isWs c = true := by
  intro c hc
  obtain ⟨c0, hc0, rfl⟩ := List.mem_map.mp hc
  have hw : isWs c0 = true := by
    rw [wsStar, List.all_eq_true] at h
    exact h c0 hc0
  rw [isWs_toLower_eq c0 hw]
  exact hw

theorem wsPlus_low (y : Str) (h : wsPlus y = true) :
    lowStr y ≠ [] ∧ ∀ c ∈ lowStr y, isWs c = true := by
  rw [wsPlus, Bool.and_eq_true] at h
  constructor
  · intro hc
    have : y = [] := by
      cases y with
      | nil => rfl
      | cons a t => cases hc
    rw [this] at h
    simp at h
  · exact wsStar_low y h.2

theorem digitsPlus_low (y : Str) (h : digitsPlus y = true) :
    lowStr y ≠ [] ∧ ∀ c ∈ lowStr y, isDigitCh c = true := by
  rw [digitsPlus, Bool.and_eq_true] at h
  constructor
  · intro hc
    cases y with
    | nil => simp at h
    | cons a t => cases hc
  · intro c hc
    obtain ⟨c0, hc0, rfl⟩ := List.mem_map.mp hc
    have hd : isDigitCh c0 = true := by
      rw [List.all_eq_true] at h
      exact h.2 c0 hc0
    rw [isDigit_toLower_eq c0 hd]
    exact hd

theorem dotOpt_eq (y : Str) (h : dotOpt y = true) : y = [] ∨ y = ['.'] := by
  rw [dotOpt, Bool.or_eq_true] at h
  rcases h with h1 | h2
  · exact Or.inl (List.isEmpty_iff.mp h1)
  · right
    simpa using h2

/-- Every lowered character of a string accepted by `numPfx` is a prefix
character. -/
theorem numPfx_chars (p : Str) (h : numPfx p = true) :
    ∀ c ∈ lowStr p, pfxChar c = true := by
  rw [numPfx, catL_eq] at h
  obtain ⟨x, y, rfl, hx, hy⟩ := h
  rw [catL_eq] at hy
  obtain ⟨u, v, rfl, hu, hv⟩ := hy
  intro c hc
  rw [lowStr, List.map_append, List.map_append] at hc
  rcases List.mem_append.mp hc with h1 | h2
  · have := (digitsPlus_low x hx).2 c (by simpa [lowStr] using h1)
    simp [pfxChar, this]
  · rcases List.mem_append.mp h2 with h3 | h4
    · rcases dotOpt_eq u hu with rfl | rfl
      · cases h3
      · have : c = '.' := by
          simpa using h3
        simp [pfxChar, this]
    · have := wsStar_low v hv c (by simpa [lowStr] using h4)
      simp [pfxChar, this]

/-- Every lowered character of a string accepted by a roman prefix made of
the letters i and v is a prefix character. -/
theorem romPfx_chars (lit : String) (p : Str)
    (hlit : ∀ c ∈ lit.data, (c = 'i' ∨ c = 'v'))
    (h : romPfx lit p = true) :
    ∀ c ∈ lowStr p, pfxChar c = true := by
  rw [romPfx, catL_eq] at h
  obtain ⟨x, y, rfl, hx, hy⟩ := h
  rw [catL_eq] at hy
  obtain ⟨u, v, rfl, hu, hv⟩ := hy
  intro c hc
  rw [lowStr, List.map_append, List.map_append] at hc
  rcases List.mem_append.mp hc with h1 | h2
  · have hxl := litL_eq lit x hx
    have h3 : c ∈ lit.data := by
      rw [← hxl]
      simpa [lowStr] using h1
    rcases hlit c h3 with rfl | rfl <;> simp [pfxChar]
  · rcases List.mem_append.mp h2 with h3 | h4
    · rcases dotOpt_eq u hu with rfl | rfl
      · cases h3
      · have : c = '.' := by
          simpa using h3
        simp [pfxChar, this]
    · have := wsStar_low v hv c (by simpa [lowStr] using h4)
      simp [pfxChar, this]

theorem glue_head (tk : List Str) (L : Str) (h : Glue tk L) :
    ∃ w ws tail, tk = w :: ws ∧ L = w ++ tail := by
  cases h with
  | last w t ht => exact ⟨w, [], t, rfl, rfl⟩
  | cons w sep ws r hne hsep hr => exact ⟨w, ws, sep ++ r, rfl, rfl⟩

theorem glue_head_not_ws (tk : List Str) (L : Str) (h : Glue tk L)
    (hg : ∀ w ∈ tk, w ≠ [] ∧ ∀ c ∈ w, isWs c = false) :
    ∀ c, L.head? = some c → isWs c = false := by
  obtain ⟨w, ws, tail, htk, hL⟩ := glue_head tk L h
  intro c hc
  have hw := hg w (by rw [htk]; simp)
  cases hwc : w with
  | nil => exact absurd hwc hw.1
  | cons c0 w' =>
    rw [hL, hwc] at hc
    simp only [List.cons_append, List.head?_cons, Option.some.injEq] at hc
    rw [← hc]
    exact hw.2 c0 (by rw [hwc]; simp)

/-- If two decompositions of a string into a block of `P`-characters followed
by a non-`P` head agree, the blocks agree. -/
theorem split_unique (P : Char → Bool) (w t w' t' : Str) (h : w ++ t = w' ++ t')
    (hw : ∀ c ∈ w, P c = true) (hw' : ∀ c ∈ w', P c = true)
    (ht : ∀ c, t.head? = some c → P c = false)
    (ht' : ∀ c, t'.head? = some c → P c = false) : w = w' ∧ t = t' := by
  rcases List.append_eq_append_iff.mp h with ⟨d, hd1, hd2⟩ | ⟨d, hd1, hd2⟩
  · cases d with
    | nil =>
      simp at hd1 hd2
      exact ⟨hd1.symm, hd2⟩
    | cons c d' =>
      exfalso
      have hc1 : P c = true := hw' c (by rw [hd1]; simp)
      have hc2 : P c = false := ht c (by rw [hd2]; rfl)
      rw [hc1] at hc2
      cases hc2
  · cases d with
    | nil =>
      simp at hd1 hd2
      exact ⟨hd1, hd2.symm⟩
    | cons c d' =>
      exfalso
      have hc1 : P c = true := hw c (by rw [hd1]; simp)
      have hc2 : P c = false := ht' c (by rw [hd2]; rfl)
      rw [hc1] at hc2
      cases hc2

theorem glue_cases (tk : List Str) (L : Str) (h : Glue tk L) :
    (∃ w t, tk = [w] ∧ L = w ++ t ∧ ∀ c ∈ t, isWs c = true) ∨
    (∃ w sep ws r, tk = w :: ws ∧ L = w ++ (sep ++ r) ∧ sep ≠ [] ∧
      (∀ c ∈ sep, isWs c = true) ∧ Glue ws r) := by
  cases h with
  | last w t ht => exact Or.inl ⟨w, t, rfl, rfl, ht⟩
  | cons w sep ws r hne hsep hr => exact Or.inr ⟨w, sep, ws, r, rfl, rfl, hne, hsep, hr⟩

theorem sep_head_ws (sep r : Str) (hne : sep ≠ [])
    (hsep : ∀ c ∈ sep, isWs c = true) :
    ∀ c, (sep ++ r).head? = some c → (!isWs c) = false := by
  intro c hc
  cases hsep0 : sep with
  | nil => exact absurd hsep0 hne
  | cons c0 s0 =>
    rw [hsep0] at hc
    simp only [List.cons_append, List.head?_cons, Option.some.injEq] at hc
    rw [← hc]
    simpa using hsep c0 (by rw [hsep0]; simp)

theorem ws_head_ws (t : Str) (ht : ∀ c ∈ t, isWs c = true) :
    ∀ c, t.head? = some c → (!isWs c) = false := by
  intro c hc
  have := ht c (List.mem_of_mem_head? hc)
  simpa using this

theorem glue_unique (tk : List Str) (L : Str) (h1 : Glue tk L) :
    ∀ tk', (∀ w ∈ tk, w ≠ [] ∧ ∀ c ∈ w, isWs c = false) →
      (∀ w ∈ tk', w ≠ [] ∧ ∀ c ∈ w, isWs c = false) →
      Glue tk' L → tk = tk' := by
  induction h1 with
  | last w t ht =>
    intro tk' hg hg' h2
    rcases glue_cases tk' (w ++ t) h2 with
      ⟨w', t', rfl, hL, ht'⟩ | ⟨w', sep', ws', r', rfl, hL, hne', hsep', hr'⟩
    · have := split_unique (fun c => !isWs c) w t w' t' hL
        (by intro c hc; simpa using (hg w (by simp)).2 c hc)
        (by intro c hc; simpa using (hg' w' (by simp)).2 c hc)
        (ws_head_ws t ht)
        (ws_head_ws t' ht')
      rw [this.1]
    · exfalso
      have hsp := split_unique (fun c => !isWs c) w t w' (sep' ++ r') hL
        (by intro c hc; simpa using (hg w (by simp)).2 c hc)
        (by intro c hc; simpa using (hg' w' (by simp)).2 c hc)
        (ws_head_ws t ht)
        (sep_head_ws sep' r' hne' hsep')
      obtain ⟨w2, ws2, tail2, htk2, hr2⟩ := glue_head ws' r' hr'
      have hw2 := hg' w2 (by simp [htk2])
      cases hw2c : w2 with
      | nil => exact absurd hw2c hw2.1
      | cons c2 w2' =>
        have hc2mem : c2 ∈ t := by
          rw [hsp.2, hr2, hw2c]
          simp
        have h3 := ht c2 hc2mem
        have hnws := hw2.2 c2 (by rw [hw2c]; simp)
        rw [h3] at hnws
        cases hnws
  | cons w sep ws r hne hsep hr ih =>
    intro tk' hg hg' h2
    rcases glue_cases tk' (w ++ (sep ++ r)) h2 with
      ⟨w', t', rfl, hL, ht'⟩ | ⟨w', sep', ws', r', rfl, hL, hne', hsep', hr'⟩
    · exfalso
      have hsp := split_unique (fun c => !isWs c) w (sep ++ r) w' t' hL
        (by intro c hc; simpa using (hg w (by simp)).2 c hc)
        (by intro c hc; simpa using (hg' w' (by simp)).2 c hc)
        (sep_head_ws sep r hne hsep)
        (ws_head_ws t' ht')
      obtain ⟨w2, ws2, tail2, htk2, hr2⟩ := glue_head ws r hr
      have hw2 := hg w2 (by simp [htk2])
      cases hw2c : w2 with
      | nil => exact absurd hw2c hw2.1
      | cons c2 w2' =>
        have hc2mem : c2 ∈ t' := by
          rw [← hsp.2, hr2, hw2c]
          simp
        have h3 := ht' c2 hc2mem
        have hnws := hw2.2 c2 (by rw [hw2c]; simp)
        rw [h3] at hnws
        cases hnws
    · have hsp := split_unique (fun c => !isWs c) w (sep ++ r) w' (sep' ++ r') hL
        (by intro c hc; simpa using (hg w (by simp)).2 c hc)
        (by intro c hc; simpa using (hg' w' (by simp)).2 c hc)
        (sep_head_ws sep r hne hsep)
        (sep_head_ws sep' r' hne' hsep')
      have hsp2 := split_unique isWs sep r sep' r' hsp.2
        (fun c hc => hsep c hc) (fun c hc => hsep' c hc)
        (by
          have := glue_head_not_ws ws r hr (fun w0 hw0 => hg w0 (by simp [hw0]))
          intro c hc
          exact this c hc)
        (by
          have := glue_head_not_ws ws' r' hr' (fun w0 hw0 => hg' w0 (by simp [hw0]))
          intro c hc
          exact this c hc)
      have hws : ws = ws' := ih ws' (fun w0 hw0 => hg w0 (by simp [hw0]))
        (fun w0 hw0 => hg' w0 (by simp [hw0]))
        (by rw [hsp2.2]; exact hr')
      rw [hsp.1, hws]

theorem lowStr_append (x y : Str) : lowStr (x ++ y) = lowStr x ++ lowStr y := by
  simp [lowStr]

theorem glue_one (w : String) (x y : Str) (hx : litL w x = true)
    (hy : wsStar y = true) : Glue [w.data] (lowStr (x ++ y)) := by
  rw [lowStr_append, litL_eq w x hx]
  exact Glue.last _ _ (wsStar_low y hy)

theorem kwEnd_inv (w : String) (s : Str) (h : kwEnd w s = true) :
    Glue [w.data] (lowStr s) := by
  rw [kwEnd, catL_eq] at h
  obtain ⟨x, y, rfl, hx, hy⟩ := h
  exact glue_one w x y hx hy

theorem plural_inv (w : String) (x : Str) (h : plural w x = true) :
    lowStr x = w.data ∨ lowStr x = w.data ++ ['s'] := by
  rw [plural, catL_eq] at h
  obtain ⟨u, v, rfl, hu, hv⟩ := h
  rcases optL_eq _ v hv with rfl | hv2
  · left
    rw [lowStr_append, litL_eq w u hu]
    simp [lowStr]
  · right
    rw [lowStr_append, litL_eq w u hu, litL_eq "s" v hv2]

theorem plural_end_inv (w : String) (s : Str)
    (h : catL (plural w) wsStar s = true) :
    Glue [w.data] (lowStr s) ∨ Glue [w.data ++ ['s']] (lowStr s) := by
  rw [catL_eq] at h
  obtain ⟨x, y, rfl, hx, hy⟩ := h
  rcases plural_inv w x hx with h2 | h2
  · left
    rw [lowStr_append, h2]
    exact Glue.last _ _ (wsStar_low y hy)
  · right
    rw [lowStr_append, h2]
    exact Glue.last _ _ (wsStar_low y hy)

theorem glue_cons_of (wd : Str) (x sep r : Str) (tk : List Str)
    (hx : lowStr x = wd) (hsep : wsPlus sep = true)
    (hr : Glue tk (lowStr r)) : Glue (wd :: tk) (lowStr (x ++ (sep ++ r))) := by
  rw [lowStr_append, lowStr_append, hx]
  exact Glue.cons wd (lowStr sep) tk (lowStr r) (wsPlus_low sep hsep).1
    (wsPlus_low sep hsep).2 hr

theorem body_cons_inv (w1 : String) (T : Lang) (tks : List (List Str)) (s : Str)
    (hT : ∀ r, T r = true → ∃ tk ∈ tks, Glue tk (lowStr r))
    (h : catL (litL w1) (catL wsPlus T) s = true) :
    ∃ tk ∈ tks, Glue (w1.data :: tk) (lowStr s) := by
  rw [catL_eq] at h
  obtain ⟨x, y, rfl, hx, hy⟩ := h
  rw [catL_eq] at hy
  obtain ⟨sep, r, rfl, hsep, hr⟩ := hy
  obtain ⟨tk, htk, hg⟩ := hT r hr
  exact ⟨tk, htk, glue_cons_of w1.data x sep r tk (litL_eq w1 x hx) hsep hg⟩

theorem body_cons_plural_inv (w1 : String) (T : Lang) (tks : List (List Str)) (s : Str)
    (hT : ∀ r, T r = true → ∃ tk ∈ tks, Glue tk (lowStr r))
    (h : catL (plural w1) (catL wsPlus T) s = true) :
    ∃ tk ∈ tks, Glue (w1.data :: tk) (lowStr s) ∨
      Glue ((w1.data ++ ['s']) :: tk) (lowStr s) := by
  rw [catL_eq] at h
  obtain ⟨x, y, rfl, hx, hy⟩ := h
  rw [catL_eq] at hy
  obtain ⟨sep, r, rfl, hsep, hr⟩ := hy
  obtain ⟨tk, htk, hg⟩ := hT r hr
  rcases plural_inv w1 x hx with h2 | h2
  · exact ⟨tk, htk, Or.inl (glue_cons_of w1.data x sep r tk h2 hsep hg)⟩
  · exact ⟨tk, htk, Or.inr (glue_cons_of (w1.data ++ ['s']) x sep r tk h2 hsep hg)⟩

theorem optPfx_inv (P : Lang) (B : Lang) (s : Str)
    (hP : ∀ p, P p = true → ∀ c ∈ lowStr p, pfxChar c = true)
    (h : catL (optL P) B s = true) :
    ∃ p r, s = p ++ r ∧ (∀ c ∈ lowStr p, pfxChar c = true) ∧ B r = true := by
  rw [catL_eq] at h
  obtain ⟨p, r, rfl, hp, hb⟩ := h
  rcases optL_eq P p hp with rfl | hp2
  · exact ⟨[], r, rfl, by simp [lowStr], hb⟩
  · exact ⟨p, r, rfl, hP p hp2, hb⟩

theorem decomp_no_pfx (K : SectionType) (s : Str) (tk : List Str)
    (hg : Glue tk (lowStr s)) (hmem : (K, tk) ∈ allTok) : PatDecomp K s :=
  ⟨[], s, tk, rfl, by simp [lowStr], hg, hmem⟩

theorem any_abstract_inv (s : Str)
    (h : [kwEnd "abstract", kwEnd "summary", kwEnd "synopsis"].any
      (fun p => p s) = true) :
    PatDecomp SectionType.ABSTRACT s := by
  simp only [List.any_cons, List.any_nil, Bool.or_eq_true, Bool.or_false] at h
  rcases h with h | h | h
  · exact decomp_no_pfx _ s _ (kwEnd_inv "abstract" s h) (by decide)
  · exact decomp_no_pfx _ s _ (kwEnd_inv "summary" s h) (by decide)
  · exact decomp_no_pfx _ s _ (kwEnd_inv "synopsis" s h) (by decide)

theorem any_introduction_inv (s : Str)
    (h : [catL (optL numPfx) (kwEnd "introduction"),
          catL (optL (romPfx "i")) (kwEnd "introduction"),
          catL (litL "1") (catL wsPlus (kwEnd "introduction")),
          kwEnd "background"].any (fun p => p s) = true) :
    PatDecomp SectionType.INTRODUCTION s := by
  simp only [List.any_cons, List.any_nil, Bool.or_eq_true, Bool.or_false] at h
  rcases h with h | h | h | h
  · obtain ⟨p, r, hs, hp, hb⟩ := optPfx_inv numPfx _ s numPfx_chars h
    exact ⟨p, r, _, hs, hp, kwEnd_inv "introduction" r hb, by decide⟩
  · obtain ⟨p, r, hs, hp, hb⟩ := optPfx_inv (romPfx "i") _ s
      (fun q hq => romPfx_chars "i" q (by decide) hq) h
    exact ⟨p, r, _, hs, hp, kwEnd_inv "introduction" r hb, by decide⟩
  · obtain ⟨tk, htk, hg⟩ := body_cons_inv "1" (kwEnd "introduction")
      [["introduction".data]] s
      (fun r hr => ⟨["introduction".data], by simp, kwEnd_inv "introduction" r hr⟩) h
    rw [List.mem_singleton] at htk
    subst htk
    exact decomp_no_pfx _ s _ hg (by decide)
  · exact decomp_no_pfx _ s _ (kwEnd_inv "background" s h) (by decide)

theorem any_references_inv (s : Str)
    (h : [kwEnd "references", kwEnd "bibliography",
          catL (plural "work") (catL wsPlus (kwEnd "cited")),
          catL (litL "literature") (catL wsPlus (kwEnd "cited"))].any
      (fun p => p s) = true) :
    PatDecomp SectionType.REFERENCES s := by
  simp only [List.any_cons, List.any_nil, Bool.or_eq_true, Bool.or_false] at h
  rcases h with h | h | h | h
  · exact decomp_no_pfx _ s _ (kwEnd_inv "references" s h) (by decide)
  · exact decomp_no_pfx _ s _ (kwEnd_inv "bibliography" s h) (by decide)
  · obtain ⟨tk, htk, hg⟩ := body_cons_plural_inv "work" (kwEnd "cited")
      [["cited".data]] s
      (fun r hr => ⟨["cited".data], by simp, kwEnd_inv "cited" r hr⟩) h
    rw [List.mem_singleton] at htk
    subst htk
    rcases hg with hg | hg
    · exact decomp_no_pfx _ s _ hg (by decide)
    · exact decomp_no_pfx _ s _ hg (by decide)
  · obtain ⟨tk, htk, hg⟩ := body_cons_inv "literature" (kwEnd "cited")
      [["cited".data]] s
      (fun r hr => ⟨["cited".data], by simp, kwEnd_inv "cited" r hr⟩) h
    rw [List.mem_singleton] at htk
    subst htk
    exact decomp_no_pfx _ s _ hg (by decide)

theorem plural_end_glue (w : String) (x y : Str) (hx : plural w x = true)
    (hy : wsStar y = true) :
    Glue [w.data] (lowStr (x ++ y)) ∨ Glue [w.data ++ ['s']] (lowStr (x ++ y)) := by
  rcases plural_inv w x hx with h2 | h2
  · left
    rw [lowStr_append, h2]
    exact Glue.last _ _ (wsStar_low y hy)
  · right
    rw [lowStr_append, h2]
    exact Glue.last _ _ (wsStar_low y hy)

theorem m1_body_inv (r : Str)
    (h : catL (optL matAnd) (catL methodsOpt wsStar) r = true) :
    ∃ tk, Glue tk (lowStr r) ∧ (SectionType.METHODOLOGY, tk) ∈ allTok := by
  rw [catL_eq] at h
  obtain ⟨x, y, rfl, hx, hy⟩ := h
  rcases optL_eq matAnd x hx with rfl | hx2
  · rcases plural_end_inv "method" y hy with hg | hg
    · exact ⟨_, hg, by decide⟩
    · exact ⟨_, hg, by decide⟩
  · rw [matAnd, catL_eq] at hx2
    obtain ⟨u, v1, rfl, hu, hv1⟩ := hx2
    rw [catL_eq] at hv1
    obtain ⟨s1, v2, rfl, hs1, hv2⟩ := hv1
    rw [catL_eq] at hv2
    obtain ⟨a, s2, rfl, ha, hs2⟩ := hv2
    have hre : ((u ++ (s1 ++ (a ++ s2))) ++ y : Str) = u ++ (s1 ++ (a ++ (s2 ++ y))) := by
      simp [List.append_assoc]
    rw [hre]
    have hmw := plural_end_inv "method" y hy
    rcases plural_inv "material" u hu with hu2 | hu2 <;> rcases hmw with hg | hg
    · exact ⟨_, glue_cons_of _ u s1 _ _ hu2 hs1
        (glue_cons_of _ a s2 y _ (litL_eq "and" a ha) hs2 hg), by decide⟩
    · exact ⟨_, glue_cons_of _ u s1 _ _ hu2 hs1
        (glue_cons_of _ a s2 y _ (litL_eq "and" a ha) hs2 hg), by decide⟩
    · exact ⟨_, glue_cons_of _ u s1 _ _ hu2 hs1
        (glue_cons_of _ a s2 y _ (litL_eq "and" a ha) hs2 hg), by decide⟩
    · exact ⟨_, glue_cons_of _ u s1 _ _ hu2 hs1
        (glue_cons_of _ a s2 y _ (litL_eq "and" a ha) hs2 hg), by decide⟩

theorem exp_tail_inv (r : Str)
    (h : catL (altL (litL "setup") (altL (litL "design") methodsOpt)) wsStar r = true) :
    ∃ tk ∈ [["setup".data], ["design".data], ["method".data], ["methods".data]],
      Glue tk (lowStr r) := by
  rw [catL_eq] at h
  obtain ⟨x, y, rfl, hx, hy⟩ := h
  rcases altL_eq _ _ x hx with h1 | h1
  · exact ⟨_, by simp, glue_one "setup" x y h1 hy⟩
  · rcases altL_eq _ _ x h1 with h2 | h2
    · exact ⟨_, by simp, glue_one "design" x y h2 hy⟩
    · rcases plural_end_glue "method" x y h2 hy with hg | hg
      · exact ⟨_, by simp, hg⟩
      · exact ⟨_, by simp, hg⟩

theorem prop_tail_inv (r : Str)
    (h : catL (altL (litL "method") (altL (litL "approach") (litL "system"))) wsStar r
      = true) :
    ∃ tk ∈ [["method".data], ["approach".data], ["system".data]],
      Glue tk (lowStr r) := by
  rw [catL_eq] at h
  obtain ⟨x, y, rfl, hx, hy⟩ := h
  rcases altL_eq _ _ x hx with h1 | h1
  · exact ⟨_, by simp, glue_one "method" x y h1 hy⟩
  · rcases altL_eq _ _ x h1 with h2 | h2
    · exact ⟨_, by simp, glue_one "approach" x y h2 hy⟩
    · exact ⟨_, by simp, glue_one "system" x y h2 hy⟩

theorem any_methodology_inv (s : Str)
    (h : [catL (optL numPfx) (catL (optL matAnd) (catL methodsOpt wsStar)),
          catL (optL numPfx) (kwEnd "methodology"),
          catL (optL numPfx) (catL (litL "experimental") (catL wsPlus
            (catL (altL (litL "setup") (altL (litL "design") methodsOpt)) wsStar))),
          catL (optL numPfx) (kwEnd "approach"),
          catL (optL numPfx) (catL (litL "proposed") (catL wsPlus
            (catL (altL (litL "method") (altL (litL "approach") (litL "system")))
              wsStar))),
          catL (optL (romPfx "ii")) (catL methodsOpt wsStar),
          catL (optL (romPfx "iii")) (catL methodsOpt wsStar)].any
      (fun p => p s) = true) :
    PatDecomp SectionType.METHODOLOGY s := by
  simp only [List.any_cons, List.any_nil, Bool.or_eq_true, Bool.or_false] at h
  rcases h with h | h | h | h | h | h | h
  · obtain ⟨p, r, hs, hp, hb⟩ := optPfx_inv numPfx _ s numPfx_chars h
    obtain ⟨tk, hg, hmem⟩ := m1_body_inv r hb
    exact ⟨p, r, tk, hs, hp, hg, hmem⟩
  · obtain ⟨p, r, hs, hp, hb⟩ := optPfx_inv numPfx _ s numPfx_chars h
    exact ⟨p, r, _, hs, hp, kwEnd_inv "methodology" r hb, by decide⟩
  · obtain ⟨p, r, hs, hp, hb⟩ := optPfx_inv numPfx _ s numPfx_chars h
    obtain ⟨tk, htk, hg⟩ := body_cons_inv "experimental" _ _ r exp_tail_inv hb
    simp only [List.mem_cons, List.mem_singleton, List.not_mem_nil, or_false] at htk
    rcases htk with rfl | rfl | rfl | rfl
    · exact ⟨p, r, _, hs, hp, hg, by decide⟩
    · exact ⟨p, r, _, hs, hp, hg, by decide⟩
    · exact ⟨p, r, _, hs, hp, hg, by decide⟩
    · exact ⟨p, r, _, hs, hp, hg, by decide⟩
  · obtain ⟨p, r, hs, hp, hb⟩ := optPfx_inv numPfx _ s numPfx_chars h
    exact ⟨p, r, _, hs, hp, kwEnd_inv "approach" r hb, by decide⟩
  · obtain ⟨p, r, hs, hp, hb⟩ := optPfx_inv numPfx _ s numPfx_chars h
    obtain ⟨tk, htk, hg⟩ := body_cons_inv "proposed" _ _ r prop_tail_inv hb
    simp only [List.mem_cons, List.mem_singleton, List.not_mem_nil, or_false] at htk
    rcases htk with rfl | rfl | rfl
    · exact ⟨p, r, _, hs, hp, hg, by decide⟩
    · exact ⟨p, r, _, hs, hp, hg, by decide⟩
    · exact ⟨p, r, _, hs, hp, hg, by decide⟩
  · obtain ⟨p, r, hs, hp, hb⟩ := optPfx_inv (romPfx "ii") _ s
      (fun q hq => romPfx_chars "ii" q (by decide) hq) h
    rcases plural_end_inv "method" r hb with hg | hg
    · exact ⟨p, r, _, hs, hp, hg, by decide⟩
    · exact ⟨p, r, _, hs, hp, hg, by decide⟩
  · obtain ⟨p, r, hs, hp, hb⟩ := optPfx_inv (romPfx "iii") _ s
      (fun q hq => romPfx_chars "iii" q (by decide) hq) h
    rcases plural_end_inv "method" r hb with hg | hg
    · exact ⟨p, r, _, hs, hp, hg, by decide⟩
    · exact ⟨p, r, _, hs, hp, hg, by decide⟩

theorem any_results_inv (s : Str)
    (h : [catL (optL numPfx) (catL resultsOpt wsStar),
          catL (optL numPfx) (catL (plural "experiment") wsStar),
          catL (optL numPfx) (catL (litL "experimental") (catL wsPlus
            (catL resultsOpt wsStar))),
          catL (optL numPfx) (kwEnd "findings"),
          catL (optL numPfx) (kwEnd "evaluation"),
          catL (optL (romPfx "iii")) (catL resultsOpt wsStar),
          catL (optL (romPfx "iv")) (catL resultsOpt wsStar)].any
      (fun p => p s) = true) :
    PatDecomp SectionType.RESULTS s := by
  simp only [List.any_cons, List.any_nil, Bool.or_eq_true, Bool.or_false] at h
  rcases h with h | h | h | h | h | h | h
  · obtain ⟨p, r, hs, hp, hb⟩ := optPfx_inv numPfx _ s numPfx_chars h
    rcases plural_end_inv "result" r hb with hg | hg
    · exact ⟨p, r, _, hs, hp, hg, by decide⟩
    · exact ⟨p, r, _, hs, hp, hg, by decide⟩
  · obtain ⟨p, r, hs, hp, hb⟩ := optPfx_inv numPfx _ s numPfx_chars h
    rcases plural_end_inv "experiment" r hb with hg | hg
    · exact ⟨p, r, _, hs, hp, hg, by decide⟩
    · exact ⟨p, r, _, hs, hp, hg, by decide⟩
  · obtain ⟨p, r, hs, hp, hb⟩ := optPfx_inv numPfx _ s numPfx_chars h
    obtain ⟨tk, htk, hg⟩ := body_cons_inv "experimental" _
      [["result".data], ["results".data]] r
      (fun r2 hr2 => by
        rcases plural_end_inv "result" r2 hr2 with hg2 | hg2
        · exact ⟨_, by simp, hg2⟩
        · exact ⟨_, by simp, hg2⟩) hb
    simp only [List.mem_cons, List.mem_singleton, List.not_mem_nil, or_false] at htk
    rcases htk with rfl | rfl
    · exact ⟨p, r, _, hs, hp, hg, by decide⟩
    · exact ⟨p, r, _, hs, hp, hg, by decide⟩
  · obtain ⟨p, r, hs, hp, hb⟩ := optPfx_inv numPfx _ s numPfx_chars h
    exact ⟨p, r, _, hs, hp, kwEnd_inv "findings" r hb, by decide⟩
  · obtain ⟨p, r, hs, hp, hb⟩ := optPfx_inv numPfx _ s numPfx_chars h
    exact ⟨p, r, _, hs, hp, kwEnd_inv "evaluation" r hb, by decide⟩
  · obtain ⟨p, r, hs, hp, hb⟩ := optPfx_inv (romPfx "iii") _ s
      (fun q hq => romPfx_chars "iii" q (by decide) hq) h
    rcases plural_end_inv "result" r hb with hg | hg
    · exact ⟨p, r, _, hs, hp, hg, by decide⟩
    · exact ⟨p, r, _, hs, hp, hg, by decide⟩
  · obtain ⟨p, r, hs, hp, hb⟩ := optPfx_inv (romPfx "iv") _ s
      (fun q hq => romPfx_chars "iv" q (by decide) hq) h
    rcases plural_end_inv "result" r hb with hg | hg
    · exact ⟨p, r, _, hs, hp, hg, by decide⟩
    · exact ⟨p, r, _, hs, hp, hg, by decide⟩

theorem any_discussion_inv (s : Str)
    (h : [catL (optL numPfx) (kwEnd "discussion"),
          catL (optL numPfx) (kwEnd "analysis"),
          catL (optL numPfx) (catL (litL "discussion") (catL wsPlus (catL (litL "and")
            (catL wsPlus (catL (altL (litL "analysis") (litL "implications"))
              wsStar))))),
          catL (optL (romPfx "iv")) (kwEnd "discussion"),
          catL (optL (romPfx "v")) (kwEnd "discussion")].any
      (fun p => p s) = true) :
    PatDecomp SectionType.DISCUSSION s := by
  simp only [List.any_cons, List.any_nil, Bool.or_eq_true, Bool.or_false] at h
  rcases h with h | h | h | h | h
  · obtain ⟨p, r, hs, hp, hb⟩ := optPfx_inv numPfx _ s numPfx_chars h
    exact ⟨p, r, _, hs, hp, kwEnd_inv "discussion" r hb, by decide⟩
  · obtain ⟨p, r, hs, hp, hb⟩ := optPfx_inv numPfx _ s numPfx_chars h
    exact ⟨p, r, _, hs, hp, kwEnd_inv "analysis" r hb, by decide⟩
  · obtain ⟨p, r, hs, hp, hb⟩ := optPfx_inv numPfx _ s numPfx_chars h
    obtain ⟨tk, htk, hg⟩ := body_cons_inv "discussion" _
      [["and".data, "analysis".data], ["and".data, "implications".data]] r
      (fun r2 hr2 => by
        obtain ⟨tk2, htk2, hg2⟩ := body_cons_inv "and" _
          [["analysis".data], ["implications".data]] r2
          (fun r3 hr3 => by
            rw [catL_eq] at hr3
            obtain ⟨x, y, rfl, hx, hy⟩ := hr3
            rcases altL_eq _ _ x hx with h1 | h1
            · exact ⟨_, by simp, glue_one "analysis" x y h1 hy⟩
            · exact ⟨_, by simp, glue_one "implications" x y h1 hy⟩) hr2
        simp only [List.mem_cons, List.mem_singleton, List.not_mem_nil,
          or_false] at htk2
        rcases htk2 with rfl | rfl
        · exact ⟨_, by simp, hg2⟩
        · exact ⟨_, by simp, hg2⟩) hb
    simp only [List.mem_cons, List.mem_singleton, List.not_mem_nil, or_false] at htk
    rcases htk with rfl | rfl
    · exact ⟨p, r, _, hs, hp, hg, by decide⟩
    · exact ⟨p, r, _, hs, hp, hg, by decide⟩
  · obtain ⟨p, r, hs, hp, hb⟩ := optPfx_inv (romPfx "iv") _ s
      (fun q hq => romPfx_chars "iv" q (by decide) hq) h
    exact ⟨p, r, _, hs, hp, kwEnd_inv "discussion" r hb, by decide⟩
  · obtain ⟨p, r, hs, hp, hb⟩ := optPfx_inv (romPfx "v") _ s
      (fun q hq => romPfx_chars "v" q (by decide) hq) h
    exact ⟨p, r, _, hs, hp, kwEnd_inv "discussion" r hb, by decide⟩

theorem any_conclusion_inv (s : Str)
    (h : [catL (optL numPfx) (catL conclusionsOpt wsStar),
          catL (optL numPfx) (catL (litL "concluding") (catL wsPlus
            (catL (plural "remark") wsStar))),
          catL (optL numPfx) (catL (litL "summary") (catL wsPlus (catL (litL "and")
            (catL wsPlus (catL conclusionsOpt wsStar))))),
          catL (optL numPfx) (catL (litL "future") (catL wsPlus (kwEnd "work"))),
          catL (optL (romPfx "v")) (catL conclusionsOpt wsStar),
          catL (optL (romPfx "vi")) (catL conclusionsOpt wsStar)].any
      (fun p => p s) = true) :
    PatDecomp SectionType.CONCLUSION s := by
  simp only [List.any_cons, List.any_nil, Bool.or_eq_true, Bool.or_false] at h
  rcases h with h | h | h | h | h | h
  · obtain ⟨p, r, hs, hp, hb⟩ := optPfx_inv numPfx _ s numPfx_chars h
    rcases plural_end_inv "conclusion" r hb with hg | hg
    · exact ⟨p, r, _, hs, hp, hg, by decide⟩
    · exact ⟨p, r, _, hs, hp, hg, by decide⟩
  · obtain ⟨p, r, hs, hp, hb⟩ := optPfx_inv numPfx _ s numPfx_chars h
    obtain ⟨tk, htk, hg⟩ := body_cons_inv "concluding" _
      [["remark".data], ["remarks".data]] r
      (fun r2 hr2 => by
        rcases plural_end_inv "remark" r2 hr2 with hg2 | hg2
        · exact ⟨_, by simp, hg2⟩
        · exact ⟨_, by simp, hg2⟩) hb
    simp only [List.mem_cons, List.mem_singleton, List.not_mem_nil, or_false] at htk
    rcases htk with rfl | rfl
    · exact ⟨p, r, _, hs, hp, hg, by decide⟩
    · exact ⟨p, r, _, hs, hp, hg, by decide⟩
  · obtain ⟨p, r, hs, hp, hb⟩ := optPfx_inv numPfx _ s numPfx_chars h
    obtain ⟨tk, htk, hg⟩ := body_cons_inv "summary" _
      [["and".data, "conclusion".data], ["and".data, "conclusions".data]] r
      (fun r2 hr2 => by
        obtain ⟨tk2, htk2, hg2⟩ := body_cons_inv "and" _
          [["conclusion".data], ["conclusions".data]] r2
          (fun r3 hr3 => by
            rcases plural_end_inv "conclusion" r3 hr3 with hg3 | hg3
            · exact ⟨_, by simp, hg3⟩
            · exact ⟨_, by simp, hg3⟩) hr2
        simp only [List.mem_cons, List.mem_singleton, List.not_mem_nil,
          or_false] at htk2
        rcases htk2 with rfl | rfl
        · exact ⟨_, by simp, hg2⟩
        · exact ⟨_, by simp, hg2⟩) hb
    simp only [List.mem_cons, List.mem_singleton, List.not_mem_nil, or_false] at htk
    rcases htk with rfl | rfl
    · exact ⟨p, r, _, hs, hp, hg, by decide⟩
    · exact ⟨p, r, _, hs, hp, hg, by decide⟩
  · obtain ⟨p, r, hs, hp, hb⟩ := optPfx_inv numPfx _ s numPfx_chars h
    obtain ⟨tk, htk, hg⟩ := body_cons_inv "future" _ [["work".data]] r
      (fun r2 hr2 => ⟨["work".data], by simp, kwEnd_inv "work" r2 hr2⟩) hb
    rw [List.mem_singleton] at htk
    subst htk
    exact ⟨p, r, _, hs, hp, hg, by decide⟩
  · obtain ⟨p, r, hs, hp, hb⟩ := optPfx_inv (romPfx "v") _ s
      (fun q hq => romPfx_chars "v" q (by decide) hq) h
    rcases plural_end_inv "conclusion" r hb with hg | hg
    · exact ⟨p, r, _, hs, hp, hg, by decide⟩
    · exact ⟨p, r, _, hs, hp, hg, by decide⟩
  · obtain ⟨p, r, hs, hp, hb⟩ := optPfx_inv (romPfx "vi") _ s
      (fun q hq => romPfx_chars "vi" q (by decide) hq) h
    rcases plural_end_inv "conclusion" r hb with hg | hg
    · exact ⟨p, r, _, hs, hp, hg, by decide⟩
    · exact ⟨p, r, _, hs, hp, hg, by decide⟩

theorem glue_nil_false (L : Str) (h : Glue [] L) : False := by
  cases h

theorem glue_single_inv (w : Str) (L : Str) (h : Glue [w] L) :
    ∃ t, L = w ++ t ∧ ∀ c ∈ t, isWs c = true := by
  rcases glue_cases [w] L h with ⟨w', t, htk, hL, ht⟩ | ⟨w', sep, ws, r, htk, hL, _, _, hr⟩
  · rw [List.cons.injEq] at htk
    rw [← htk.1] at hL
    exact ⟨t, hL, ht⟩
  · rw [List.cons.injEq] at htk
    rw [← htk.2] at hr
    exact absurd hr (glue_nil_false r)

theorem glue_pair_inv (w1 w2 : Str) (L : Str) (h : Glue [w1, w2] L) :
    ∃ sep t, L = w1 ++ (sep ++ (w2 ++ t)) ∧ sep ≠ [] ∧
      (∀ c ∈ sep, isWs c = true) ∧ (∀ c ∈ t, isWs c = true) := by
  rcases glue_cases [w1, w2] L h with
    ⟨w', t, htk, hL, ht⟩ | ⟨w', sep, ws, r, htk, hL, hne, hsep, hr⟩
  · exfalso
    rw [List.cons.injEq] at htk
    exact absurd htk.2 (by simp)
  · rw [List.cons.injEq] at htk
    obtain ⟨hw', hws⟩ := htk
    rw [← hws] at hr
    obtain ⟨t, hrt, ht⟩ := glue_single_inv w2 r hr
    rw [← hw', hrt] at hL
    exact ⟨sep, t, hL, hne, hsep, ht⟩

theorem allTok_good : ∀ p ∈ allTok, GoodWords p.2 := by decide

theorem allTok_functional : ∀ p ∈ allTok, ∀ q ∈ allTok, p.2 = q.2 → p.1 = q.1 := by
  decide

theorem allTok_first_pfx : ∀ p ∈ allTok, pfxChar (p.2.headI.headI) = true →
    (p.2.headI = "introduction".data ∨ p.2.headI = "1".data) := by decide

theorem allTok_no_n : ∀ p ∈ allTok, p.2.headI.headI ≠ 'n' := by decide

theorem allTok_one : ∀ p ∈ allTok, p.2.headI = "1".data →
    p.1 = SectionType.INTRODUCTION ∧ p.2 = wl ["1", "introduction"] := by decide

theorem allTok_allpfx : ∀ p ∈ allTok, (∀ c ∈ p.2.headI, pfxChar c = true) →
    p.2.headI = "1".data := by decide

theorem allTok_intro : ∀ p ∈ allTok, p.2 = wl ["introduction"] →
    p.1 = SectionType.INTRODUCTION := by decide

theorem head_of_append (w t : Str) (x : Char) (l : Str) (hne : w ≠ [])
    (h : w ++ t = x :: l) : w.headI = x := by
  cases w with
  | nil => exact absurd rfl hne
  | cons a w' =>
    rw [List.cons_append, List.cons.injEq] at h
    exact h.1

theorem good_head_not_ws (w : Str) (hg : w ≠ [] ∧ ∀ c ∈ w, isWs c = false) :
    isWs w.headI = false := by
  cases w with
  | nil => exact absurd rfl hg.1
  | cons a w' => exact hg.2 a (by simp)

theorem glue_forces_intro (K : SectionType) (tk : List Str) (L t : Str)
    (hm : (K, tk) ∈ allTok) (hg : Glue tk L)
    (hL : L = "introduction".data ++ t) (ht : ∀ c ∈ t, isWs c = true) :
    K = SectionType.INTRODUCTION := by
  have hgood : GoodWords tk := allTok_good (K, tk) hm
  have hg2 : Glue ["introduction".data] L := by
    rw [hL]
    exact Glue.last _ t ht
  have htk : tk = ["introduction".data] :=
    glue_unique tk L hg _ hgood.2 (by decide) hg2
  exact allTok_intro (K, tk) hm htk

theorem lowStr_cons (c : Char) (l : Str) :
    lowStr (c :: l) = Char.toLower c :: lowStr l := rfl

theorem patDecomp_clash_aux (K1 K2 : SectionType)
    (p1 r1 p2 r2 : Str) (tk1 tk2 : List Str)
    (heq : p1 ++ r1 = p2 ++ r2)
    (hp2 : ∀ c ∈ lowStr p2, pfxChar c = true)
    (hg1 : Glue tk1 (lowStr r1)) (hm1 : (K1, tk1) ∈ allTok)
    (hg2 : Glue tk2 (lowStr r2)) (hm2 : (K2, tk2) ∈ allTok)
    (hlen : p1.length ≤ p2.length) : K1 = K2 := by
  have hgood1 : GoodWords tk1 := allTok_good (K1, tk1) hm1
  have hgood2 : GoodWords tk2 := allTok_good (K2, tk2) hm2
  obtain ⟨mid, hmid1, hmid2⟩ : ∃ mid, p2 = p1 ++ mid ∧ r1 = mid ++ r2 := by
    rcases List.append_eq_append_iff.mp heq with ⟨d, hd1, hd2⟩ | ⟨d, hd1, hd2⟩
    · exact ⟨d, hd1, hd2⟩
    · have hd0 : d = [] := by
        have hl := congrArg List.length hd1
        rw [List.length_append] at hl
        have : d.length = 0 := by omega
        exact List.length_eq_zero.mp this
      subst hd0
      refine ⟨[], ?_, ?_⟩
      · rw [List.append_nil] at hd1 ⊢
        exact hd1.symm
      · rw [List.nil_append] at hd2 ⊢
        exact hd2.symm
  cases mid with
  | nil =>
    rw [List.nil_append] at hmid2
    rw [hmid2] at hg1
    have htk := glue_unique tk1 (lowStr r2) hg1 tk2 hgood1.2 hgood2.2 hg2
    exact allTok_functional (K1, tk1) hm1 (K2, tk2) hm2 htk
  | cons c mid' =>
    have hlow : lowStr r1 = lowStr (c :: mid') ++ lowStr r2 := by
      rw [hmid2, lowStr_append]
    have hmidchars : ∀ ch ∈ lowStr (c :: mid'), pfxChar ch = true := by
      intro ch hch
      apply hp2
      rw [hmid1, lowStr_append]
      exact List.mem_append_right _ hch
    obtain ⟨w1, ws1, tail1, htk1, hL1⟩ := glue_head tk1 _ hg1
    obtain ⟨w2, ws2, tail2, htk2, hL2⟩ := glue_head tk2 _ hg2
    have hw1g := hgood1.2 w1 (by rw [htk1]; simp)
    have hw2g := hgood2.2 w2 (by rw [htk2]; simp)
    have hh1 : tk1.headI = w1 := by rw [htk1]; rfl
    have hh2 : tk2.headI = w2 := by rw [htk2]; rfl
    have hkey : w1 ++ tail1 = lowStr (c :: mid') ++ (w2 ++ tail2) := by
      rw [← hL1, hlow, hL2]
    rcases List.append_eq_append_iff.mp hkey with ⟨d, hda, hdb⟩ | ⟨d, hda, hdb⟩
    · -- the first word lies inside the extra prefix `mid`: all its chars are
      -- prefix chars, so it must be the word "1" and kind 1 is INTRODUCTION;
      -- the rest of r1 then spells "introduction", forcing kind 2 as well.
      have hw1pfx : ∀ ch ∈ w1, pfxChar ch = true := by
        intro ch hch
        apply hmidchars
        rw [hda]
        exact List.mem_append_left _ hch
      have hdpfx : ∀ ch ∈ d, pfxChar ch = true := by
        intro ch hch
        apply hmidchars
        rw [hda]
        exact List.mem_append_right _ hch
      have hone : tk1.headI = "1".data := by
        apply allTok_allpfx (K1, tk1) hm1
        show ∀ ch ∈ tk1.headI, pfxChar ch = true
        rw [hh1]
        exact hw1pfx
      obtain ⟨hK1x, ht1x⟩ := allTok_one (K1, tk1) hm1 hone
      have hK1 : K1 = SectionType.INTRODUCTION := hK1x
      have ht1 : tk1 = wl ["1", "introduction"] := ht1x
      have hw1e : w1 = "1".data := by rw [← hh1, hone]
      have hg1' : Glue ["1".data, "introduction".data] (lowStr r1) := by
        rw [ht1] at hg1
        exact hg1
      obtain ⟨sep, t, hpL, hsne, hsep, ht⟩ := glue_pair_inv _ _ _ hg1'
      have htail1 : tail1 = sep ++ ("introduction".data ++ t) := by
        have h1 : w1 ++ tail1 = w1 ++ (sep ++ ("introduction".data ++ t)) := by
          rw [← hL1, hpL, hw1e]
        exact List.append_cancel_left h1
      have hsd : sep ++ ("introduction".data ++ t) = d ++ (w2 ++ tail2) := by
        rw [← htail1, hdb]
      rcases List.append_eq_append_iff.mp hsd with ⟨e, hea, heb⟩ | ⟨e, hea, heb⟩
      · -- d = sep ++ e
        have hepfx : ∀ ch ∈ e, pfxChar ch = true := by
          intro ch hch
          apply hdpfx
          rw [hea]
          exact List.mem_append_right _ hch
        cases e with
        | nil =>
          rw [List.nil_append] at heb
          have hK2 : K2 = SectionType.INTRODUCTION := by
            apply glue_forces_intro K2 tk2 (lowStr r2) t hm2 hg2 _ ht
            rw [hL2, ← heb]
          rw [hK1, hK2]
        | cons ce e' =>
          have heb2 : ('i' : Char) :: ("ntroduction".data ++ t) =
              ce :: (e' ++ (w2 ++ tail2)) := heb
          rw [List.cons.injEq] at heb2
          cases e' with
          | nil =>
            have h2 : w2 ++ tail2 = 'n' :: ("troduction".data ++ t) := by
              have h3 := heb2.2
              rw [List.nil_append] at h3
              exact h3.symm
            have hw2h : w2.headI = 'n' :=
              head_of_append w2 tail2 'n' ("troduction".data ++ t) hw2g.1 h2
            exact absurd (show tk2.headI.headI = 'n' by rw [hh2]; exact hw2h)
              (allTok_no_n (K2, tk2) hm2)
          | cons ce2 e'' =>
            have h2 : ('n' : Char) :: ("troduction".data ++ t) =
                ce2 :: (e'' ++ (w2 ++ tail2)) := heb2.2
            rw [List.cons.injEq] at h2
            have hpc2 : pfxChar ce2 = true := hepfx ce2 (by simp)
            rw [← h2.1] at hpc2
            exact absurd hpc2 (by decide)
      · -- sep = d ++ e
        cases e with
        | nil =>
          rw [List.nil_append] at heb
          have hK2 : K2 = SectionType.INTRODUCTION := by
            apply glue_forces_intro K2 tk2 (lowStr r2) t hm2 hg2 _ ht
            rw [hL2, heb]
          rw [hK1, hK2]
        | cons ce e' =>
          have hcews : isWs ce = true := by
            apply hsep
            rw [hea]
            exact List.mem_append_right _ (by simp)
          have hw2h : w2.headI = ce := by
            apply head_of_append w2 tail2 ce (e' ++ ("introduction".data ++ t)) hw2g.1
            rw [heb, List.cons_append]
          have := good_head_not_ws w2 hw2g
          rw [hw2h, hcews] at this
          exact absurd this (by decide)
    · -- the first word extends past `mid`: its head is a prefix char, so the
      -- word is "introduction" or "1"; each branch is impossible.
      have hcm := lowStr_cons c mid'
      have hw1h : w1.headI = Char.toLower c := by
        rw [hda, hcm, List.cons_append]
        rfl
      have hpc : pfxChar (Char.toLower c) = true := by
        apply hmidchars
        rw [hcm]
        exact List.mem_cons_self _ _
      have hpfx1 : pfxChar (tk1.headI.headI) = true := by
        rw [hh1, hw1h]
        exact hpc
      rcases allTok_first_pfx (K1, tk1) hm1 hpfx1 with hw1 | hw1
      · -- tk1's first word is "introduction"
        have hw1e : w1 = "introduction".data := by rw [← hh1, hw1]
        rw [hw1e, hcm, List.cons_append] at hda
        have hintro : ("introduction".data : Str) =
            'i' :: ('n' :: "troduction".data) := rfl
        rw [hintro, List.cons.injEq] at hda
        cases mid' with
        | nil =>
          have hd : lowStr ([] : Str) ++ d = d := by
            rw [show lowStr ([] : Str) = [] from rfl, List.nil_append]
          rw [hd] at hda
          have hw2h : w2.headI = 'n' := by
            apply head_of_append w2 tail2 'n' ("troduction".data ++ tail1) hw2g.1
            rw [hdb, ← hda.2, List.cons_append]
          exact absurd (show tk2.headI.headI = 'n' by rw [hh2]; exact hw2h)
            (allTok_no_n (K2, tk2) hm2)
        | cons c2 mid'' =>
          rw [lowStr_cons, List.cons_append, List.cons.injEq] at hda
          have hpc2 : pfxChar (Char.toLower c2) = true := by
            apply hmidchars
            rw [hcm, lowStr_cons]
            exact List.mem_cons_of_mem _ (List.mem_cons_self _ _)
          rw [← hda.2.1] at hpc2
          exact absurd hpc2 (by decide)
      · -- tk1's first word is "1": r2 would have to start with whitespace
        have hw1e : w1 = "1".data := by rw [← hh1, hw1]
        obtain ⟨hK1x, ht1x⟩ := allTok_one (K1, tk1) hm1 hw1
        have hK1 : K1 = SectionType.INTRODUCTION := hK1x
        have ht1 : tk1 = wl ["1", "introduction"] := ht1x
        rw [hw1e, hcm, List.cons_append] at hda
        have hone : ("1".data : Str) = '1' :: [] := rfl
        rw [hone, List.cons.injEq] at hda
        have hnil := List.append_eq_nil.mp hda.2.symm
        have hg1' : Glue ["1".data, "introduction".data] (lowStr r1) := by
          rw [ht1] at hg1
          exact hg1
        obtain ⟨sep, t, hpL, hsne, hsep, ht⟩ := glue_pair_inv _ _ _ hg1'
        have htail1 : tail1 = sep ++ ("introduction".data ++ t) := by
          have h1 : w1 ++ tail1 = w1 ++ (sep ++ ("introduction".data ++ t)) := by
            rw [← hL1, hpL, hw1e]
          exact List.append_cancel_left h1
        rw [hnil.2, List.nil_append] at hdb
        cases hsc : sep with
        | nil => exact absurd hsc hsne
        | cons cs sep' =>
          rw [hsc, List.cons_append] at htail1
          rw [htail1] at hdb
          have hw2h : w2.headI = cs :=
            head_of_append w2 tail2 cs (sep' ++ ("introduction".data ++ t)) hw2g.1 hdb
          have hcsws : isWs cs = true := by
            apply hsep
            rw [hsc]
            exact List.mem_cons_self _ _
          have hnw := good_head_not_ws w2 hw2g
          rw [hw2h, hcsws] at hnw
          exact absurd hnw (by decide)

theorem patDecomp_clash (s : Str) (K1 K2 : SectionType)
    (h1 : PatDecomp K1 s) (h2 : PatDecomp K2 s) : K1 = K2 := by
  obtain ⟨p1, r1, tk1, hs1, hp1, hg1, hm1⟩ := h1
  obtain ⟨p2, r2, tk2, hs2, hp2, hg2, hm2⟩ := h2
  have heq : p1 ++ r1 = p2 ++ r2 := by rw [← hs1, ← hs2]
  rcases le_total p1.length p2.length with hle | hle
  · exact patDecomp_clash_aux K1 K2 p1 r1 p2 r2 tk1 tk2 heq hp2 hg1 hm1 hg2 hm2 hle
  · exact (patDecomp_clash_aux K2 K1 p2 r2 p1 r1 tk2 tk1 heq.symm hp1
      hg2 hm2 hg1 hm1 hle).symm

theorem table_any_patDecomp (K : SectionType) (ps : List Lang) (s : Str)
    (hm : (K, ps) ∈ sectionPatternTable) (h : ps.any (fun p => p s) = true) :
    PatDecomp K s := by
  simp only [sectionPatternTable, List.mem_cons, List.not_mem_nil, or_false,
    Prod.mk.injEq] at hm
  rcases hm with ⟨hK, hps⟩ | ⟨hK, hps⟩ | ⟨hK, hps⟩ | ⟨hK, hps⟩ | ⟨hK, hps⟩ |
    ⟨hK, hps⟩ | ⟨hK, hps⟩ <;> subst hK <;> rw [hps] at h
  · exact any_abstract_inv s h
  · exact any_introduction_inv s h
  · exact any_methodology_inv s h
  · exact any_results_inv s h
  · exact any_discussion_inv s h
  · exact any_conclusion_inv s h
  · exact any_references_inv s h

theorem filterMap_length_le_one {α β : Type} (f : α → Option β) :
    ∀ (l : List α), List.Pairwise (fun a b => f a = none ∨ f b = none) l →
      (l.filterMap f).length ≤ 1 := by
  intro l hl
  induction l with
  | nil => simp
  | cons a l ih =>
    rw [List.pairwise_cons] at hl
    cases hfa : f a with
    | none => simp only [List.filterMap_cons, hfa]; exact ih hl.2
    | some b =>
      simp only [List.filterMap_cons, hfa]
      have hnil : l.filterMap f = [] := by
        rw [List.filterMap_eq_nil_iff]
        intro x hx
        rcases hl.1 x hx with h | h
        · rw [hfa] at h; exact absurd h (by simp)
        · exact h
      rw [hnil]
      simp

theorem table_kinds_pairwise :
    List.Pairwise (fun a b : SectionType × List Lang => a.1 ≠ b.1)
      sectionPatternTable := by
  simp only [sectionPatternTable, List.pairwise_cons, List.mem_cons,
    List.not_mem_nil, or_false, List.Pairwise.nil]
  refine ⟨?_, ?_, ?_, ?_, ?_, ?_, by simp⟩ <;>
    (intro x hx; rcases hx with rfl | rfl | rfl | rfl | rfl | rfl | rfl <;> decide)

theorem lineMatches_length_le_one (pos : Nat) (st : Str) :
    (lineMatches pos st).length ≤ 1 := by
  apply filterMap_length_le_one
  apply List.Pairwise.imp_of_mem _ table_kinds_pairwise
  intro a b ha hb hne
  by_cases hca : a.2.any (fun p => p st) = true
  · by_cases hcb : b.2.any (fun p => p st) = true
    · exfalso
      apply hne
      exact patDecomp_clash st a.1 b.1
        (table_any_patDecomp a.1 a.2 st ha hca)
        (table_any_patDecomp b.1 b.2 st hb hcb)
    · right
      rw [if_neg hcb]
  · left
    rw [if_neg hca]

theorem lineMatches_mem_inv (pos : Nat) (st : Str) (m : SectionMatch)
    (hm : m ∈ lineMatches pos st) :
    m.confidence = 0.7 ∧ m.method = "pattern" ∧ m.position = pos ∧
    m.header_text = st ∧
    ∃ ps, (m.section_type, ps) ∈ sectionPatternTable ∧
      ps.any (fun p => p st) = true := by
  obtain ⟨kp, hkp, hsome⟩ := List.mem_filterMap.mp hm
  revert hsome
  by_cases hc : kp.2.any (fun p => p st) = true
  · rw [if_pos hc]
    intro hsome
    injection hsome with hsome
    rw [← hsome]
    exact ⟨rfl, rfl, rfl, rfl, kp.2, hkp, hc⟩
  · rw [if_neg hc]
    intro hsome
    cases hsome

theorem patternMatchGo_flat (ls : List Str) (pos : Nat) :
    patternMatchGo ls pos =
      ((withOffsets pos ls).map (fun pl => lineEmit pl.1 pl.2)).flatten := by
  induction ls generalizing pos with
  | nil => rfl
  | cons l ls ih =>
    simp only [patternMatchGo, withOffsets, List.map_cons, List.flatten_cons, ih, lineEmit]

/-- C6: for every input text, `_pattern_match` processes the lines of the
text with a running offset equal to the cumulative length of prior lines
plus one terminator per line; a line that is blank after stripping emits no
candidate, and every other line emits at most one candidate match, whose
confidence is exactly 0.7, whose provenance is "pattern", whose offset is the
start of its line, whose header text is the stripped line, and whose section
kind is the unique — hence the first in table order — kind with a matching
pattern (the kinds' pattern languages are pairwise disjoint). -/
theorem pattern_matcher_per_line (text : Str) :
    patternMatch text =
      ((withOffsets 0 (splitNl text)).map (fun pl => lineEmit pl.1 pl.2)).flatten ∧
    (∀ pos l, (pyStrip l).isEmpty = true → lineEmit pos l = []) ∧
    (∀ pos l, (lineEmit pos l).length ≤ 1) ∧
    (∀ pos l m, m ∈ lineEmit pos l →
      m.confidence = 0.7 ∧ m.method = "pattern" ∧ m.position = pos ∧
      m.header_text = pyStrip l ∧
      ∃ ps, (m.section_type, ps) ∈ sectionPatternTable ∧
        ps.any (fun p => p (pyStrip l)) = true ∧
        ∀ K ps', (K, ps') ∈ sectionPatternTable →
          ps'.any (fun p => p (pyStrip l)) = true → K = m.section_type) := by
  refine ⟨patternMatchGo_flat (splitNl text) 0, ?_, ?_, ?_⟩
  · intro pos l hblank
    rw [lineEmit, if_pos hblank]
  · intro pos l
    rw [lineEmit]
    by_cases hblank : (pyStrip l).isEmpty = true
    · rw [if_pos hblank]
      simp
    · rw [if_neg hblank]
      exact lineMatches_length_le_one pos (pyStrip l)
  · intro pos l m hm
    rw [lineEmit] at hm
    by_cases hblank : (pyStrip l).isEmpty = true
    · rw [if_pos hblank] at hm
      cases hm
    · rw [if_neg hblank] at hm
      obtain ⟨hconf, hmeth, hpos, hhdr, ps, hps, hany⟩ :=
        lineMatches_mem_inv pos (pyStrip l) m hm
      refine ⟨hconf, hmeth, hpos, hhdr, ps, hps, hany, ?_⟩
      intro K ps' hps' hany'
      exact patDecomp_clash (pyStrip l) K m.section_type
        (table_any_patDecomp K ps' (pyStrip l) hps' hany')
        (table_any_patDecomp m.section_type ps (pyStrip l) hps hany)

theorem pattern_matcher_per_line_witness :
    (lineEmit 0 "abstract".data).length ≤ 1 :=
  (pattern_matcher_per_line []).2.2.1 0 "abstract".data
